import Mathlib

/-!
# Verification of the LevelDB core against its specification

Byte strings are modelled as `List Nat` (each element an octet).  Machine
integers are modelled as `Nat` with explicit `% 2 ^ w` where wrap-around
matters.  Fallible operations return `Option`.

The development covers:
* the decimal printer/parser of `util/logging.cc` (real source);
* the bloom filter policy, write batch, memtable, block codec and table
  offset accounting, modelled from the specification (their sources are
  not part of the repository snapshot, only their tests are).
-/

namespace LevelDB

/-! ## util/logging.cc : decimal printing and parsing -/

/-- `std::numeric_limits<uint64_t>::max()`, the `kMaxUint64` constant of
`ConsumeDecimalNumber` in `util/logging.cc`. -/
def kMaxUint64 : Nat := 2 ^ 64 - 1

/-- Decimal digit bytes of `n`, most significant first (empty for `0`).
Fuel-indexed so that the definition is structurally recursive; any
`fuel ≥ n` gives the digits of `n`. -/
def toDecimalAux : Nat → Nat → List Nat
  | 0, _ => []
  | fuel + 1, n => if n = 0 then [] else toDecimalAux fuel (n / 10) ++ [48 + n % 10]

/-- `NumberToString` from `util/logging.cc`: the `%llu` rendering of a
64-bit unsigned integer, as a byte string (`48` is `'0'`). -/
def NumberToString (n : Nat) : List Nat :=
  if n = 0 then [48] else toDecimalAux n n

/-- The digit-consuming loop of `ConsumeDecimalNumber` in `util/logging.cc`.
Returns `none` when the overflow check fires (the C function returns `false`
without writing `*val` or advancing the view); otherwise returns the
accumulated value and the number of digit bytes consumed.  `48`, `57` and
`53` are `'0'`, `'9'` and `kLastDigitOfMaxUint64 = '5'`. -/
def consumeDecimalLoop : List Nat → Nat → Nat → Option (Nat × Nat)
  | [], value, cnt => some (value, cnt)
  | ch :: rest, value, cnt =>
    if ch < 48 ∨ 57 < ch then some (value, cnt)
    else if value > kMaxUint64 / 10 ∨ (value = kMaxUint64 / 10 ∧ 53 < ch) then none
    else consumeDecimalLoop rest (value * 10 + (ch - 48)) (cnt + 1)

/-- `ConsumeDecimalNumber` from `util/logging.cc`.  `some (ok, val, rest)`
models a normal return: `ok` is the returned boolean (`digits_consumed != 0`),
`val` the value stored through `*val`, and `rest` the view after
`remove_prefix(digits_consumed)`.  `none` models the early `return false`
on overflow, which leaves `*val` and the view untouched. -/
def ConsumeDecimalNumber (s : List Nat) : Option (Bool × Nat × List Nat) :=
  match consumeDecimalLoop s 0 0 with
  | none => none
  | some (value, cnt) => some (cnt != 0, value, s.drop cnt)

theorem toDecimalAux_eq_digits (fuel : Nat) :
    ∀ n, n ≤ fuel → toDecimalAux fuel n = (Nat.digits 10 n).reverse.map (fun d => 48 + d) := by
  induction fuel with
  | zero =>
    intro n hn
    interval_cases n
    simp [toDecimalAux]
  | succ fuel ih =>
    intro n hn
    by_cases h0 : n = 0
    · simp [toDecimalAux, h0]
    · have hpos : 0 < n := Nat.pos_of_ne_zero h0
      have hdiv : n / 10 ≤ fuel := by
        have : n / 10 < n := Nat.div_lt_self hpos (by norm_num)
        omega
      rw [toDecimalAux, if_neg h0, ih _ hdiv, Nat.digits_def' (by norm_num : 1 < 10) hpos]
      simp

theorem foldl_decimal_ge (ds : List Nat) : ∀ v : Nat, v ≤ List.foldl (fun a d => a * 10 + d) v ds := by
  induction ds with
  | nil => intro v; simp
  | cons d ds ih =>
    intro v
    have h1 : v ≤ v * 10 + d := by nlinarith
    calc v ≤ v * 10 + d := h1
    _ ≤ List.foldl (fun a d => a * 10 + d) (v * 10 + d) ds := ih _

theorem consumeDecimalLoop_digits (ds : List Nat) :
    ∀ v cnt : Nat, (∀ d ∈ ds, d < 10) →
    List.foldl (fun a d => a * 10 + d) v ds ≤ kMaxUint64 →
    consumeDecimalLoop (ds.map (fun d => 48 + d)) v cnt =
      some (List.foldl (fun a d => a * 10 + d) v ds, cnt + ds.length) := by
  induction ds with
  | nil => intro v cnt _ _; simp [consumeDecimalLoop]
  | cons d ds ih =>
    intro v cnt hd hb
    have hdlt : d < 10 := hd d (List.mem_cons_self d ds)
    have hstep : v * 10 + d ≤ List.foldl (fun a d => a * 10 + d) (v * 10 + d) ds :=
      foldl_decimal_ge ds (v * 10 + d)
    have hfold : List.foldl (fun a d => a * 10 + d) v (d :: ds) =
        List.foldl (fun a d => a * 10 + d) (v * 10 + d) ds := by simp
    have hvd : v * 10 + d ≤ kMaxUint64 := by
      rw [hfold] at hb; omega
    have hM : kMaxUint64 / 10 = (2 ^ 64 - 1) / 10 := rfl
    have hnd : ¬ (48 + d < 48 ∨ 57 < 48 + d) := by omega
    have hno : ¬ (v > kMaxUint64 / 10 ∨ (v = kMaxUint64 / 10 ∧ 53 < 48 + d)) := by
      unfold kMaxUint64 at hvd ⊢
      omega
    rw [List.map_cons, consumeDecimalLoop, if_neg hnd, if_neg hno]
    have h48 : 48 + d - 48 = d := by omega
    rw [h48, ih (v * 10 + d) (cnt + 1) (fun x hx => hd x (List.mem_cons_of_mem d hx)) (by rw [hfold] at hb; exact hb)]
    rw [hfold]
    simp
    omega

theorem foldl_digits_reverse (b : Nat) (L : List Nat) :
    ∀ v : Nat, List.foldl (fun a d => a * b + d) v L.reverse =
      v * b ^ L.length + Nat.ofDigits b L := by
  induction L with
  | nil => intro v; simp
  | cons d ds ih =>
    intro v
    rw [List.reverse_cons, List.foldl_append, ih v]
    simp [Nat.ofDigits_cons, pow_succ]
    ring

/-- C10: for every 64-bit unsigned integer `n`, parsing the string printed
by `NumberToString n` succeeds, yields `n`, and consumes the whole view. -/
theorem consumeDecimalNumber_numberToString (n : Nat) (h : n ≤ kMaxUint64) :
    ConsumeDecimalNumber (NumberToString n) = some (true, n, []) := by
  by_cases h0 : n = 0
  · subst h0; rfl
  · have hpos : 0 < n := Nat.pos_of_ne_zero h0
    have hdig : ∀ d ∈ (Nat.digits 10 n).reverse, d < 10 := by
      intro d hdmem
      exact Nat.digits_lt_base (by norm_num) (List.mem_reverse.mp hdmem)
    have hfold : List.foldl (fun a d => a * 10 + d) 0 (Nat.digits 10 n).reverse = n := by
      rw [foldl_digits_reverse, Nat.ofDigits_digits]
      simp
    have hne : Nat.digits 10 n ≠ [] := Nat.digits_ne_nil_iff_ne_zero.mpr h0
    have hlen : (Nat.digits 10 n).length ≠ 0 := by
      simpa [List.length_eq_zero] using hne
    rw [NumberToString, if_neg h0, toDecimalAux_eq_digits n n le_rfl]
    unfold ConsumeDecimalNumber
    rw [consumeDecimalLoop_digits _ 0 0 hdig (by rw [hfold]; exact h)]
    rw [hfold]
    simp [hlen]

/-- Witness for C10 at the maximum 64-bit value. -/
theorem consumeDecimalNumber_numberToString_witness :
    (18446744073709551615 : Nat) ≤ kMaxUint64 ∧
      ConsumeDecimalNumber (NumberToString 18446744073709551615) =
        some (true, 18446744073709551615, []) :=
  ⟨by decide, consumeDecimalNumber_numberToString 18446744073709551615 (by decide)⟩

/-! ## Byte-string comparison (the default BytewiseComparator) -/

/-- Modelled from the spec: the default comparator is the lexicographic
bytewise order on byte strings (memcmp on the common prefix, then length). -/
def byteCompare : List Nat → List Nat → Ordering
  | [], [] => .eq
  | [], _ :: _ => .lt
  | _ :: _, [] => .gt
  | a :: as, b :: bs => if a < b then .lt else if b < a then .gt else byteCompare as bs

/-- Strict "less than" of the bytewise comparator. -/
def byteLt (a b : List Nat) : Bool := byteCompare a b == .lt

theorem byteCompare_self (a : List Nat) : byteCompare a a = .eq := by
  induction a with
  | nil => rfl
  | cons x xs ih => simp [byteCompare, ih]

theorem byteCompare_eq_iff (a b : List Nat) : byteCompare a b = .eq ↔ a = b := by
  induction a generalizing b with
  | nil => cases b <;> simp [byteCompare]
  | cons x xs ih =>
    cases b with
    | nil => simp [byteCompare]
    | cons y ys =>
      by_cases h1 : x < y
      · simp [byteCompare, h1]
        omega
      · by_cases h2 : y < x
        · simp [byteCompare, h1, h2]
          omega
        · have hxy : x = y := by omega
          simp [byteCompare, h1, h2, hxy, ih]

theorem byteCompare_lt_trans {a b c : List Nat} :
    byteCompare a b = .lt → byteCompare b c = .lt → byteCompare a c = .lt := by
  induction a generalizing b c with
  | nil =>
    cases b <;> cases c <;> simp [byteCompare]
  | cons x xs ih =>
    cases b with
    | nil => simp [byteCompare]
    | cons y ys =>
      cases c with
      | nil => simp [byteCompare]
      | cons z zs =>
        intro hab hbc
        by_cases hxy : x < y
        · by_cases hyz : y < z
          · simp [byteCompare, show x < z by omega]
          · by_cases hzy : z < y
            · simp [byteCompare, hyz, hzy] at hbc
            · have : y = z := by omega
              simp [byteCompare, show x < z by omega]
        · by_cases hyx : y < x
          · simp [byteCompare, hxy, hyx] at hab
          · have hxy' : x = y := by omega
            subst hxy'
            by_cases hyz : x < z
            · simp [byteCompare, hyz]
            · by_cases hzy : z < x
              · simp [byteCompare, hyz, hzy] at hbc
              · simp [byteCompare, hxy, hyx] at hab
                simp [byteCompare, hyz, hzy] at hbc ⊢
                exact ih hab hbc

theorem byteCompare_total (a b : List Nat) :
    byteCompare a b = .lt ∨ byteCompare b a = .lt ∨ a = b := by
  induction a generalizing b with
  | nil => cases b <;> simp [byteCompare]
  | cons x xs ih =>
    cases b with
    | nil => simp [byteCompare]
    | cons y ys =>
      by_cases h1 : x < y
      · left; simp [byteCompare, h1]
      · by_cases h2 : y < x
        · right; left; simp [byteCompare, h2]
        · have hxy : x = y := by omega
          subst hxy
          rcases ih ys with h | h | h
          · left; simp [byteCompare, h]
          · right; left; simp [byteCompare, h]
          · right; right; simp [h]

/-! ## Coding: little-endian fixed-width and varint codecs (spec section 2) -/

/-- Modelled from the spec: `EncodeFixed32`, little-endian. -/
def encodeFixed32 (n : Nat) : List Nat :=
  [n % 256, n / 256 % 256, n / 256 ^ 2 % 256, n / 256 ^ 3 % 256]

/-- Modelled from the spec: `DecodeFixed32` on the first four bytes. -/
def decodeFixed32 (bs : List Nat) : Nat :=
  bs.getD 0 0 % 256 + bs.getD 1 0 % 256 * 256 + bs.getD 2 0 % 256 * 256 ^ 2 +
    bs.getD 3 0 % 256 * 256 ^ 3

/-- Modelled from the spec: `EncodeFixed64`, little-endian. -/
def encodeFixed64 (n : Nat) : List Nat :=
  [n % 256, n / 256 % 256, n / 256 ^ 2 % 256, n / 256 ^ 3 % 256,
   n / 256 ^ 4 % 256, n / 256 ^ 5 % 256, n / 256 ^ 6 % 256, n / 256 ^ 7 % 256]

/-- Modelled from the spec: `DecodeFixed64` on the first eight bytes. -/
def decodeFixed64 (bs : List Nat) : Nat :=
  bs.getD 0 0 % 256 + bs.getD 1 0 % 256 * 256 + bs.getD 2 0 % 256 * 256 ^ 2 +
    bs.getD 3 0 % 256 * 256 ^ 3 + bs.getD 4 0 % 256 * 256 ^ 4 +
    bs.getD 5 0 % 256 * 256 ^ 5 + bs.getD 6 0 % 256 * 256 ^ 6 +
    bs.getD 7 0 % 256 * 256 ^ 7

theorem decodeFixed32_encodeFixed32 (n : Nat) (hn : n < 2 ^ 32) (rest : List Nat) :
    decodeFixed32 (encodeFixed32 n ++ rest) = n := by
  simp [decodeFixed32, encodeFixed32]
  omega

theorem decodeFixed64_encodeFixed64 (n : Nat) (hn : n < 2 ^ 64) (rest : List Nat) :
    decodeFixed64 (encodeFixed64 n ++ rest) = n := by
  simp [decodeFixed64, encodeFixed64]
  omega

theorem length_encodeFixed32 (n : Nat) : (encodeFixed32 n).length = 4 := rfl

/-- Modelled from the spec: varint encoding, seven bits per byte
little-endian, continuation bit `0x80`.  Fuel-indexed for structural
recursion; fuel 5 covers every value below `2 ^ 35`. -/
def encodeVarintAux : Nat → Nat → List Nat
  | 0, n => [n % 128]
  | fuel + 1, n => if n < 128 then [n] else (n % 128 + 128) :: encodeVarintAux fuel (n / 128)

/-- `PutVarint32` (spec-modelled); at most five bytes for values below
`2 ^ 32`. -/
def encodeVarint32 (n : Nat) : List Nat := encodeVarintAux 4 n

/-- Modelled from the spec: varint decoding, reading 7-bit groups while the
continuation bit is set, with at most `g` groups (five for varint32, as in
`GetVarint32Ptr`). -/
def decodeVarintAux : Nat → Nat → Nat → List Nat → Option (Nat × List Nat)
  | 0, _, _, _ => none
  | _ + 1, _, _, [] => none
  | g + 1, shift, acc, b :: rest =>
    if b % 256 < 128 then some (acc + b % 128 * 2 ^ shift, rest)
    else decodeVarintAux g (shift + 7) (acc + b % 128 * 2 ^ shift) rest

/-- `GetVarint32` (spec-modelled). -/
def decodeVarint32 (bs : List Nat) : Option (Nat × List Nat) :=
  decodeVarintAux 5 0 0 bs

theorem length_encodeVarintAux (fuel n : Nat) :
    (encodeVarintAux fuel n).length ≤ fuel + 1 := by
  induction fuel generalizing n with
  | zero => simp [encodeVarintAux]
  | succ fuel ih =>
    by_cases h : n < 128
    · simp [encodeVarintAux, h]
    · simp only [encodeVarintAux, if_neg h, List.length_cons]
      have := ih (n / 128)
      omega

theorem length_encodeVarint32 (n : Nat) : (encodeVarint32 n).length ≤ 5 :=
  length_encodeVarintAux 4 n

theorem decodeVarintAux_encodeVarintAux (fuel : Nat) :
    ∀ n, n < 128 ^ (fuel + 1) → ∀ shift acc rest,
      decodeVarintAux (fuel + 1) shift acc (encodeVarintAux fuel n ++ rest) =
        some (acc + n * 2 ^ shift, rest) := by
  induction fuel with
  | zero =>
    intro n hn shift acc rest
    have h1 : n % 128 = n := Nat.mod_eq_of_lt (by simpa using hn)
    simp [encodeVarintAux, decodeVarintAux, h1, Nat.mod_eq_of_lt (show n < 256 by omega)]
    omega
  | succ fuel ih =>
    intro n hn shift acc rest
    by_cases h : n < 128
    · have h1 : n % 128 = n := Nat.mod_eq_of_lt h
      simp [encodeVarintAux, decodeVarintAux, h, h1, Nat.mod_eq_of_lt (show n < 256 by omega)]
    · have hb : ¬ (n % 128 + 128) % 256 < 128 := by omega
      have hdiv : n / 128 < 128 ^ (fuel + 1) := by
        rw [Nat.div_lt_iff_lt_mul (by norm_num)]
        calc n < 128 ^ (fuel + 1 + 1) := hn
        _ = 128 ^ (fuel + 1) * 128 := by ring
      simp only [encodeVarintAux, if_neg h, List.cons_append, decodeVarintAux, if_neg hb]
      have hmod : (n % 128 + 128) % 128 = n % 128 := by omega
      rw [hmod, ih (n / 128) hdiv (shift + 7) (acc + n % 128 * 2 ^ shift) rest]
      have key : acc + n % 128 * 2 ^ shift + n / 128 * 2 ^ (shift + 7) =
          acc + n * 2 ^ shift := by
        have h7 : (2 : Nat) ^ (shift + 7) = 2 ^ shift * 128 := by rw [pow_add]; norm_num
        calc acc + n % 128 * 2 ^ shift + n / 128 * 2 ^ (shift + 7)
            = acc + (n % 128 + n / 128 * 128) * 2 ^ shift := by rw [h7]; ring
          _ = acc + n * 2 ^ shift := by rw [Nat.mod_add_div' n 128]
      rw [key]

theorem decodeVarint32_encodeVarint32 (n : Nat) (hn : n < 2 ^ 32) (rest : List Nat) :
    decodeVarint32 (encodeVarint32 n ++ rest) = some (n, rest) := by
  have h := decodeVarintAux_encodeVarintAux 4 n (by norm_num; omega) 0 0 rest
  simpa [decodeVarint32, encodeVarint32] using h

theorem decodeVarintAux_frame (g : Nat) :
    ∀ shift acc bs n r, decodeVarintAux g shift acc bs = some (n, r) →
      ∀ tail, decodeVarintAux g shift acc (bs ++ tail) = some (n, r ++ tail) := by
  induction g with
  | zero => intro _ _ _ _ _ h; simp [decodeVarintAux] at h
  | succ g ih =>
    intro shift acc bs n r h tail
    cases bs with
    | nil => simp [decodeVarintAux] at h
    | cons b rest =>
      by_cases hb : b % 256 < 128
      · simp [decodeVarintAux, hb] at h ⊢
        exact ⟨h.1, by rw [h.2]⟩
      · simp only [decodeVarintAux, if_neg hb, List.cons_append] at h ⊢
        exact ih _ _ _ _ _ h tail

theorem decodeVarint32_frame {bs : List Nat} {n : Nat} {r : List Nat}
    (h : decodeVarint32 bs = some (n, r)) (tail : List Nat) :
    decodeVarint32 (bs ++ tail) = some (n, r ++ tail) :=
  decodeVarintAux_frame 5 0 0 bs n r h tail

/-- `PutLengthPrefixedSlice` (spec-modelled). -/
def putLengthPrefixed (s : List Nat) : List Nat := encodeVarint32 s.length ++ s

/-- `GetLengthPrefixedSlice` (spec-modelled): varint length then that many
bytes. -/
def getLengthPrefixed (bs : List Nat) : Option (List Nat × List Nat) :=
  match decodeVarint32 bs with
  | none => none
  | some (n, rest) => if n ≤ rest.length then some (rest.take n, rest.drop n) else none

theorem getLengthPrefixed_putLengthPrefixed (s : List Nat) (hs : s.length < 2 ^ 32)
    (rest : List Nat) :
    getLengthPrefixed (putLengthPrefixed s ++ rest) = some (s, rest) := by
  rw [putLengthPrefixed, List.append_assoc, getLengthPrefixed,
    decodeVarint32_encodeVarint32 s.length hs (s ++ rest)]
  simp

/-! ## Bloom filter policy (spec section 4.3)

Modelled from the spec: the bloom filter source is not part of the
repository snapshot (only `BloomTest`); `CreateFilter` and `KeyMayMatch`
follow spec section 4.3.  The 32-bit hash function is a parameter: the
no-false-negative property holds for every hash. -/

/-- The per-hop delta `(h >> 17) | (h << 15)` on 32-bit values. -/
def bloomDelta (h : Nat) : Nat := h / 2 ^ 17 ||| h * 2 ^ 15 % 2 ^ 32

/-- The probe sequence shared by `CreateFilter` and `KeyMayMatch`:
`n` bit positions starting at hash `h`, advancing by `delta` modulo
`2 ^ 32`, each taken modulo `bits`. -/
def probeBits : Nat → Nat → Nat → Nat → List Nat
  | 0, _, _, _ => []
  | n + 1, h, delta, bits => h % bits :: probeBits n ((h + delta) % 2 ^ 32) delta bits

/-- Set bit `i` of a byte array: bit `i % 8` of byte `i / 8`. -/
def setBitInBytes (arr : List Nat) (i : Nat) : List Nat :=
  arr.set (i / 8) (arr.getD (i / 8) 0 ||| 2 ^ (i % 8))

/-- Test bit `i` of a byte array. -/
def bitIsSet (arr : List Nat) (i : Nat) : Bool :=
  (arr.getD (i / 8) 0).testBit (i % 8)

/-- Modelled from the spec: `k = max(1, min(30, round(bits_per_key·ln 2)))`;
for the tests' `bits_per_key = 10` this gives 7 probes. -/
def bloomNumProbes : Nat := 7

/-- One key of `CreateFilter`: set all the key's probe bits. -/
def bloomAddKey (hash : List Nat → Nat) (numProbes bits : Nat)
    (arr key : List Nat) : List Nat :=
  let h := hash key % 2 ^ 32
  (probeBits numProbes h (bloomDelta h) bits).foldl setBitInBytes arr

/-- Modelled from the spec: `BloomFilterPolicy::CreateFilter`.
`bits = max(64, n·bits_per_key)` rounded up to a whole number of bytes; the
array of zero bytes gets a trailing byte holding the probe count, then every
key sets its probe bits. -/
def bloomCreateFilter (hash : List Nat → Nat) (numProbes bitsPerKey : Nat)
    (keys : List (List Nat)) : List Nat :=
  let bytes := (max 64 (keys.length * bitsPerKey) + 7) / 8
  let bits := bytes * 8
  let init := List.replicate bytes 0 ++ [numProbes]
  keys.foldl (bloomAddKey hash numProbes bits) init

/-- Modelled from the spec: `BloomFilterPolicy::KeyMayMatch`. -/
def bloomKeyMayMatch (hash : List Nat → Nat) (key filter : List Nat) : Bool :=
  if filter.length < 2 then false
  else
    let bits := (filter.length - 1) * 8
    let k := filter.getD (filter.length - 1) 0
    if k > 30 then true
    else
      let h := hash key % 2 ^ 32
      (probeBits k h (bloomDelta h) bits).all (bitIsSet filter)

theorem length_setBitInBytes (arr : List Nat) (i : Nat) :
    (setBitInBytes arr i).length = arr.length := by
  simp [setBitInBytes]

theorem bitIsSet_setBitInBytes_of_set (arr : List Nat) {i j : Nat}
    (h : bitIsSet arr i = true) : bitIsSet (setBitInBytes arr j) i = true := by
  unfold bitIsSet setBitInBytes at *
  by_cases hlen : j / 8 < arr.length
  · by_cases hij : j / 8 = i / 8
    · rw [← hij] at h ⊢
      rw [List.getD_eq_getElem?_getD, List.getElem?_set_self hlen]
      rw [List.getD_eq_getElem?_getD] at h
      cases hget : arr[j / 8]? with
      | none => rw [hget] at h; simp at h
      | some v =>
        rw [hget] at h
        simp at h
        simp [Nat.testBit_lor, hget, h]
    · rw [List.getD_eq_getElem?_getD, List.getElem?_set_ne hij,
        ← List.getD_eq_getElem?_getD]
      exact h
  · rw [List.set_eq_of_length_le (by omega)]
    exact h

theorem bitIsSet_setBitInBytes_self (arr : List Nat) {i : Nat}
    (h : i / 8 < arr.length) : bitIsSet (setBitInBytes arr i) i = true := by
  unfold bitIsSet setBitInBytes
  rw [List.getD_eq_getElem?_getD, List.getElem?_set_self h]
  simp [Nat.testBit_lor, Nat.testBit_two_pow]

theorem getD_top_setBitInBytes (arr : List Nat) {i t : Nat} (h : i / 8 ≠ t) :
    (setBitInBytes arr i).getD t 0 = arr.getD t 0 := by
  unfold setBitInBytes
  rw [List.getD_eq_getElem?_getD, List.getElem?_set_ne h, ← List.getD_eq_getElem?_getD]

theorem probeBits_lt (n : Nat) :
    ∀ h delta bits, 0 < bits → ∀ i ∈ probeBits n h delta bits, i < bits := by
  induction n with
  | zero => intro h delta bits _ i hi; simp [probeBits] at hi
  | succ n ih =>
    intro h delta bits hb i hi
    simp only [probeBits, List.mem_cons] at hi
    rcases hi with hi | hi
    · subst hi; exact Nat.mod_lt _ hb
    · exact ih _ _ _ hb i hi

theorem foldl_setBit_length (L : List Nat) :
    ∀ arr : List Nat, (L.foldl setBitInBytes arr).length = arr.length := by
  induction L with
  | nil => intro arr; rfl
  | cons i L ih => intro arr; rw [List.foldl_cons, ih, length_setBitInBytes]

theorem foldl_setBit_mono (L : List Nat) :
    ∀ arr : List Nat, ∀ i, bitIsSet arr i = true →
      bitIsSet (L.foldl setBitInBytes arr) i = true := by
  induction L with
  | nil => intro arr i h; exact h
  | cons j L ih =>
    intro arr i h
    exact ih _ i (bitIsSet_setBitInBytes_of_set arr h)

theorem foldl_setBit_sets (L : List Nat) :
    ∀ arr : List Nat, ∀ i ∈ L, i / 8 < arr.length →
      bitIsSet (L.foldl setBitInBytes arr) i = true := by
  induction L with
  | nil => intro arr i hi; simp at hi
  | cons j L ih =>
    intro arr i hi hlen
    rcases List.mem_cons.mp hi with hij | hmem
    · subst hij
      exact foldl_setBit_mono L _ i (bitIsSet_setBitInBytes_self arr hlen)
    · exact ih _ i hmem (by rw [length_setBitInBytes]; exact hlen)

theorem foldl_setBit_top (L : List Nat) :
    ∀ arr : List Nat, ∀ t, (∀ i ∈ L, i / 8 ≠ t) →
      (L.foldl setBitInBytes arr).getD t 0 = arr.getD t 0 := by
  induction L with
  | nil => intro arr t _; rfl
  | cons j L ih =>
    intro arr t hne
    rw [List.foldl_cons, ih _ t (fun i hi => hne i (List.mem_cons_of_mem j hi)),
      getD_top_setBitInBytes arr (hne j (List.mem_cons_self j L))]

theorem bloomAddKey_length (hash : List Nat → Nat) (numProbes bits : Nat)
    (arr key : List Nat) :
    (bloomAddKey hash numProbes bits arr key).length = arr.length :=
  foldl_setBit_length _ arr

theorem bloomAddKey_mono (hash : List Nat → Nat) (numProbes bits : Nat)
    (arr key : List Nat) {i : Nat} (h : bitIsSet arr i = true) :
    bitIsSet (bloomAddKey hash numProbes bits arr key) i = true :=
  foldl_setBit_mono _ arr i h

theorem bloomAddKey_top (hash : List Nat → Nat) (numProbes bits : Nat)
    (arr key : List Nat) {t : Nat} (hb : 0 < bits) (ht : bits ≤ t * 8) :
    (bloomAddKey hash numProbes bits arr key).getD t 0 = arr.getD t 0 := by
  refine foldl_setBit_top _ arr t (fun i hi => ?_)
  have hlt : i < bits := probeBits_lt numProbes _ _ bits hb i hi
  intro hcontr
  subst hcontr
  have : i / 8 * 8 ≤ i := Nat.div_mul_le_self i 8
  omega

theorem bloomFold_length (hash : List Nat → Nat) (numProbes bits : Nat)
    (keys : List (List Nat)) :
    ∀ arr : List Nat,
      (keys.foldl (bloomAddKey hash numProbes bits) arr).length = arr.length := by
  induction keys with
  | nil => intro arr; rfl
  | cons k keys ih =>
    intro arr
    rw [List.foldl_cons, ih, bloomAddKey_length]

theorem bloomFold_mono (hash : List Nat → Nat) (numProbes bits : Nat)
    (keys : List (List Nat)) :
    ∀ arr : List Nat, ∀ i, bitIsSet arr i = true →
      bitIsSet (keys.foldl (bloomAddKey hash numProbes bits) arr) i = true := by
  induction keys with
  | nil => intro arr i h; exact h
  | cons k keys ih =>
    intro arr i h
    exact ih _ i (bloomAddKey_mono hash numProbes bits arr k h)

theorem bloomFold_top (hash : List Nat → Nat) (numProbes bits : Nat)
    (keys : List (List Nat)) (hb : 0 < bits) :
    ∀ arr : List Nat, ∀ t, bits ≤ t * 8 →
      (keys.foldl (bloomAddKey hash numProbes bits) arr).getD t 0 = arr.getD t 0 := by
  induction keys with
  | nil => intro arr t _; rfl
  | cons k keys ih =>
    intro arr t ht
    rw [List.foldl_cons, ih _ t ht, bloomAddKey_top hash numProbes bits arr k hb ht]

/-- C7: a bloom filter built at 10 bits per key has no false negatives —
`KeyMayMatch` accepts every key of the set the filter was built from, for
every 32-bit hash function, because it reproduces exactly the probe
sequence of `CreateFilter`. -/
theorem bloom_keyMayMatch_of_mem (hash : List Nat → Nat) (keys : List (List Nat))
    (key : List Nat) (hmem : key ∈ keys) :
    bloomKeyMayMatch hash key (bloomCreateFilter hash bloomNumProbes 10 keys) = true := by
  obtain ⟨pre, post, hsplit⟩ := List.append_of_mem hmem
  set bytes := (max 64 (keys.length * 10) + 7) / 8 with hbytes
  have hbytes8 : 8 ≤ bytes := by
    have h64 : 64 ≤ max 64 (keys.length * 10) := le_max_left _ _
    have : (64 + 7) / 8 ≤ (max 64 (keys.length * 10) + 7) / 8 :=
      Nat.div_le_div_right (by omega)
    simpa [hbytes] using this
  set bits := bytes * 8 with hbits
  have hbpos : 0 < bits := by omega
  set init := List.replicate bytes 0 ++ [bloomNumProbes] with hinit
  have hinitlen : init.length = bytes + 1 := by simp [hinit]
  set filter := keys.foldl (bloomAddKey hash bloomNumProbes bits) init with hfilter
  have hflen : filter.length = bytes + 1 := by
    rw [hfilter, bloomFold_length, hinitlen]
  have htop : filter.getD bytes 0 = bloomNumProbes := by
    rw [hfilter, bloomFold_top hash bloomNumProbes bits keys hbpos init bytes (by omega)]
    simp [hinit, List.getD_eq_getElem?_getD, List.getElem?_append_right,
      List.length_replicate]
  have hcreate : bloomCreateFilter hash bloomNumProbes 10 keys = filter := rfl
  rw [hcreate]
  unfold bloomKeyMayMatch
  rw [if_neg (by omega)]
  simp only [hflen]
  have hsub : bytes + 1 - 1 = bytes := by omega
  rw [hsub, htop, if_neg (by norm_num [bloomNumProbes])]
  rw [List.all_eq_true]
  intro i hi
  have hilt : i < bits := by
    have := probeBits_lt bloomNumProbes (hash key % 2 ^ 32)
      (bloomDelta (hash key % 2 ^ 32)) bits hbpos i
    rw [hbits] at this ⊢
    exact this hi
  have hidiv : i / 8 < bytes := by
    have h1 : i / 8 * 8 ≤ i := Nat.div_mul_le_self i 8
    by_contra hcon
    push_neg at hcon
    have : bytes * 8 ≤ i / 8 * 8 := Nat.mul_le_mul_right 8 hcon
    omega
  rw [hfilter, hsplit, List.foldl_append, List.foldl_cons]
  refine bloomFold_mono hash bloomNumProbes bits post _ i ?_
  refine foldl_setBit_sets _ _ i hi ?_
  rw [bloomFold_length, hinitlen]
  omega

/-- Witness for C7: a concrete hash, key set and member key. -/
theorem bloom_keyMayMatch_of_mem_witness :
    [104, 105] ∈ [[104, 105], [119, 111]] ∧
      bloomKeyMayMatch (fun k => k.foldl (fun a b => (a * 31 + b) % 2 ^ 32) 0)
        [104, 105]
        (bloomCreateFilter (fun k => k.foldl (fun a b => (a * 31 + b) % 2 ^ 32) 0)
          bloomNumProbes 10 [[104, 105], [119, 111]]) = true :=
  ⟨by decide,
    bloom_keyMayMatch_of_mem (fun k => k.foldl (fun a b => (a * 31 + b) % 2 ^ 32) 0)
      [[104, 105], [119, 111]] [104, 105] (by decide)⟩

/-! ## Internal keys and the memtable (spec sections 4.5, 4.6)

Modelled from the spec: the memtable and internal-key sources are not in
the repository snapshot (only their tests); the model follows spec
sections 4.5 and 4.6. -/

/-- Value types: `Delete = 0`, `Put = 1` (spec section 3). -/
inductive ValueType where
  | deletion
  | value
deriving DecidableEq

/-- The numeric encoding of a value type (low 8 bits of the tag). -/
def ValueType.tagBits : ValueType → Nat
  | .deletion => 0
  | .value => 1

/-- A memtable entry: user key, sequence number, value type and value. -/
structure MemEntry where
  userKey : List Nat
  seq : Nat
  vt : ValueType
  val : List Nat
deriving DecidableEq

/-- The 64-bit internal-key tag `sequence << 8 | type`. -/
def MemEntry.tag (e : MemEntry) : Nat := e.seq * 256 + e.vt.tagBits

/-- Modelled from the spec: the `InternalKeyComparator` orders internal keys
by user key ascending (bytewise) and, on equal user keys, by descending
sequence then descending type — i.e. by descending tag. -/
def internalLE (a b : MemEntry) : Prop :=
  byteCompare a.userKey b.userKey = .lt ∨
    (byteCompare a.userKey b.userKey = .eq ∧ b.tag ≤ a.tag)

instance : DecidableRel internalLE := fun a b => by
  unfold internalLE; infer_instance

instance : IsTotal MemEntry internalLE where
  total a b := by
    rcases byteCompare_total a.userKey b.userKey with h | h | h
    · exact Or.inl (Or.inl h)
    · exact Or.inr (Or.inl h)
    · rcases Nat.le_total b.tag a.tag with ht | ht
      · exact Or.inl (Or.inr ⟨(byteCompare_eq_iff _ _).mpr h, ht⟩)
      · exact Or.inr (Or.inr ⟨(byteCompare_eq_iff _ _).mpr h.symm, ht⟩)

instance : IsTrans MemEntry internalLE where
  trans a b c hab hbc := by
    rcases hab with hab | ⟨hab, htab⟩
    · rcases hbc with hbc | ⟨hbc, _⟩
      · exact Or.inl (byteCompare_lt_trans hab hbc)
      · have : b.userKey = c.userKey := (byteCompare_eq_iff _ _).mp hbc
        exact Or.inl (this ▸ hab)
    · have hab' : a.userKey = b.userKey := (byteCompare_eq_iff _ _).mp hab
      rcases hbc with hbc | ⟨hbc, htbc⟩
      · exact Or.inl (hab' ▸ hbc)
      · have hbc' : b.userKey = c.userKey := (byteCompare_eq_iff _ _).mp hbc
        exact Or.inr ⟨(byteCompare_eq_iff _ _).mpr (hab'.trans hbc'), le_trans htbc htab⟩

/-- Modelled from the spec: `MemTable::Add` inserts at the position chosen
by the internal-key comparator (ordered skiplist insertion); a forward scan
of the memtable is the list itself, in comparator order. -/
def memTableAdd (mem : List MemEntry) (e : MemEntry) : List MemEntry :=
  mem.orderedInsert internalLE e

theorem memTable_sorted (es : List MemEntry) :
    ∀ mem : List MemEntry, mem.Sorted internalLE →
      (es.foldl memTableAdd mem).Sorted internalLE := by
  induction es with
  | nil => intro mem h; exact h
  | cons e es ih =>
    intro mem h
    exact ih _ (List.Sorted.orderedInsert e mem h)

/-! ## WriteBatch (spec section 4.7)

Modelled from the spec: the WriteBatch source is not in the repository
snapshot (only `write_batch_test.cc`); the model follows spec section 4.7.
A batch is its serialized byte string: an 8-byte little-endian base
sequence, a 4-byte little-endian record count, then the records. -/

/-- A fresh (cleared) WriteBatch: the 12-byte zero header. -/
def wbEmpty : List Nat := List.replicate 12 0

/-- The base sequence number (bytes 0..7, little-endian). -/
def wbSequence (b : List Nat) : Nat := decodeFixed64 b

/-- `WriteBatchInternal::SetSequence`. -/
def wbSetSequence (b : List Nat) (s : Nat) : List Nat := encodeFixed64 s ++ b.drop 8

/-- The record count (bytes 8..11, little-endian). -/
def wbCount (b : List Nat) : Nat := decodeFixed32 (b.drop 8)

/-- `WriteBatchInternal::SetCount`. -/
def wbSetCount (b : List Nat) (c : Nat) : List Nat :=
  b.take 8 ++ encodeFixed32 c ++ b.drop 12

/-- `WriteBatch::Put`: bump the count, append `0x01 varlen(key) key
varlen(value) value`. -/
def wbPut (b k v : List Nat) : List Nat :=
  wbSetCount b (wbCount b + 1) ++ 1 :: (putLengthPrefixed k ++ putLengthPrefixed v)

/-- `WriteBatch::Delete`: bump the count, append `0x00 varlen(key) key`. -/
def wbDelete (b k : List Nat) : List Nat :=
  wbSetCount b (wbCount b + 1) ++ 0 :: putLengthPrefixed k

/-- `WriteBatch::Append`: add the other batch's count and concatenate its
records (everything after its 12-byte header); the receiver's base
sequence is untouched. -/
def wbAppend (b1 b2 : List Nat) : List Nat :=
  wbSetCount b1 (wbCount b1 + wbCount b2) ++ b2.drop 12

/-- Replay status (spec section 7). -/
inductive WBStatus where
  | ok
  | corruption
deriving DecidableEq

/-- Modelled from the spec: the record loop of `InsertInto` replay: read a
tag byte, parse the record, insert at sequence `seq` and continue at
`seq + 1`; an unparsable record stops the loop with a Corruption status,
keeping the entries already produced.  Returns the entries in record
order, the status, and the number of records parsed.  Fuel-indexed for
structural recursion; any fuel at least the byte count gives the replay. -/
def wbIterateAux : Nat → List Nat → Nat → List MemEntry × WBStatus × Nat
  | _, [], _ => ([], .ok, 0)
  | 0, _ :: _, _ => ([], .corruption, 0)
  | fuel + 1, tag :: rest, seq =>
    if tag = 1 then
      match getLengthPrefixed rest with
      | none => ([], .corruption, 0)
      | some (k, rest1) =>
        match getLengthPrefixed rest1 with
        | none => ([], .corruption, 0)
        | some (v, rest2) =>
          let out := wbIterateAux fuel rest2 (seq + 1)
          (⟨k, seq, .value, v⟩ :: out.1, out.2.1, out.2.2 + 1)
    else if tag = 0 then
      match getLengthPrefixed rest with
      | none => ([], .corruption, 0)
      | some (k, rest1) =>
        let out := wbIterateAux fuel rest1 (seq + 1)
        (⟨k, seq, .deletion, []⟩ :: out.1, out.2.1, out.2.2 + 1)
    else ([], .corruption, 0)

/-- The sequence of `MemTable::Add` calls a replay performs, with status and
parsed-record count. -/
def wbReplay (b : List Nat) : List MemEntry × WBStatus × Nat :=
  wbIterateAux (b.drop 12).length (b.drop 12) (wbSequence b)

/-- Modelled from the spec: `WriteBatchInternal::InsertInto`: check the
12-byte header, replay the records into the memtable, and return Corruption
when a record fails to parse or when the parsed-record count disagrees with
the header count. -/
def wbInsertInto (b : List Nat) (mem : List MemEntry) : List MemEntry × WBStatus :=
  if b.length < 12 then (mem, .corruption)
  else
    let out := wbReplay b
    (out.1.foldl memTableAdd mem,
      match out.2.1 with
      | .corruption => .corruption
      | .ok => if out.2.2 = wbCount b then .ok else .corruption)

/-- An abstract WriteBatch record. -/
inductive WBOp where
  | put (k v : List Nat)
  | del (k : List Nat)
deriving DecidableEq

/-- The serialized form of one record (spec section 4.7). -/
def wbEncodeOp : WBOp → List Nat
  | .put k v => 1 :: (putLengthPrefixed k ++ putLengthPrefixed v)
  | .del k => 0 :: putLengthPrefixed k

/-- The records region of a batch holding `ops`. -/
def wbRecords (ops : List WBOp) : List Nat := (ops.map wbEncodeOp).flatten

/-- The serialized WriteBatch with base sequence `s` and records `ops`. -/
def wbMake (s : Nat) (ops : List WBOp) : List Nat :=
  encodeFixed64 s ++ encodeFixed32 ops.length ++ wbRecords ops

/-- The memtable entry that replay produces for record `op` at sequence
`seq`: Put inserts with type Value, Delete with type Deletion. -/
def wbOpEntry (seq : Nat) : WBOp → MemEntry
  | .put k v => ⟨k, seq, .value, v⟩
  | .del k => ⟨k, seq, .deletion, []⟩

/-- The replay entries of `ops` starting at sequence `seq`: record `i`
is inserted at sequence `seq + i`. -/
def wbEntries : List WBOp → Nat → List MemEntry
  | [], _ => []
  | op :: ops, seq => wbOpEntry seq op :: wbEntries ops (seq + 1)

/-- Well-formed records: key and value fit a varint32 length. -/
def WBOpWf : WBOp → Prop
  | .put k v => k.length < 2 ^ 32 ∧ v.length < 2 ^ 32
  | .del k => k.length < 2 ^ 32

instance : DecidablePred WBOpWf := fun op => by
  cases op with
  | put k v => exact decidable_of_iff (k.length < 2 ^ 32 ∧ v.length < 2 ^ 32) Iff.rfl
  | del k => exact decidable_of_iff (k.length < 2 ^ 32) Iff.rfl

theorem decodeVarintAux_length (g : Nat) :
    ∀ shift acc bs n r, decodeVarintAux g shift acc bs = some (n, r) →
      r.length < bs.length := by
  induction g with
  | zero => intro _ _ _ _ _ h; simp [decodeVarintAux] at h
  | succ g ih =>
    intro shift acc bs n r h
    cases bs with
    | nil => simp [decodeVarintAux] at h
    | cons b rest =>
      by_cases hb : b % 256 < 128
      · simp [decodeVarintAux, hb] at h
        rw [← h.2]
        simp
      · simp only [decodeVarintAux, if_neg hb] at h
        have := ih _ _ _ _ _ h
        simp only [List.length_cons]
        omega

theorem getLengthPrefixed_length {bs s r : List Nat}
    (h : getLengthPrefixed bs = some (s, r)) : r.length < bs.length := by
  unfold getLengthPrefixed at h
  cases hdec : decodeVarint32 bs with
  | none => rw [hdec] at h; simp at h
  | some p =>
    rw [hdec] at h
    obtain ⟨n, rest⟩ := p
    by_cases hle : n ≤ rest.length
    · simp [hle] at h
      have h1 : rest.length < bs.length := decodeVarintAux_length 5 0 0 bs n rest hdec
      rw [← h.2]
      simp only [List.length_drop]
      omega
    · simp [hle] at h

theorem wbIterateAux_fuel (fuel : Nat) :
    ∀ bs seq, bs.length ≤ fuel →
      wbIterateAux fuel bs seq = wbIterateAux bs.length bs seq := by
  induction fuel using Nat.strong_induction_on with
  | _ fuel ih =>
    intro bs seq hlen
    cases bs with
    | nil => cases fuel <;> rfl
    | cons tag rest =>
      cases fuel with
      | zero => simp at hlen
      | succ f =>
        simp only [List.length_cons]
        by_cases h1 : tag = 1
        · cases hk : getLengthPrefixed rest with
          | none => simp only [wbIterateAux, if_pos h1, hk]
          | some p1 =>
            obtain ⟨k, rest1⟩ := p1
            cases hv : getLengthPrefixed rest1 with
            | none => simp only [wbIterateAux, if_pos h1, hk, hv]
            | some p2 =>
              obtain ⟨v, rest2⟩ := p2
              have hr1 : rest1.length < rest.length := getLengthPrefixed_length hk
              have hr2 : rest2.length < rest1.length := getLengthPrefixed_length hv
              have hlen1 : rest.length + 1 ≤ f + 1 := by simpa using hlen
              have e1 : wbIterateAux f rest2 (seq + 1) =
                  wbIterateAux rest2.length rest2 (seq + 1) :=
                ih f (by omega) rest2 (seq + 1) (by omega)
              have e2 : wbIterateAux rest.length rest2 (seq + 1) =
                  wbIterateAux rest2.length rest2 (seq + 1) :=
                ih rest.length (by omega) rest2 (seq + 1) (by omega)
              simp only [wbIterateAux, if_pos h1, hk, hv, e1, e2]
        · by_cases h0 : tag = 0
          · cases hk : getLengthPrefixed rest with
            | none => simp only [wbIterateAux, if_neg h1, if_pos h0, hk]
            | some p1 =>
              obtain ⟨k, rest1⟩ := p1
              have hr1 : rest1.length < rest.length := getLengthPrefixed_length hk
              have hlen1 : rest.length + 1 ≤ f + 1 := by simpa using hlen
              have e1 : wbIterateAux f rest1 (seq + 1) =
                  wbIterateAux rest1.length rest1 (seq + 1) :=
                ih f (by omega) rest1 (seq + 1) (by omega)
              have e2 : wbIterateAux rest.length rest1 (seq + 1) =
                  wbIterateAux rest1.length rest1 (seq + 1) :=
                ih rest.length (by omega) rest1 (seq + 1) (by omega)
              simp only [wbIterateAux, if_neg h1, if_pos h0, hk, e1, e2]
          · simp only [wbIterateAux, if_neg h1, if_neg h0]

/-- Replay of a byte string, with canonical fuel. -/
def wbIterate (bs : List Nat) (seq : Nat) : List MemEntry × WBStatus × Nat :=
  wbIterateAux bs.length bs seq

theorem wbIterate_cons_put (k v rest : List Nat) (hk : k.length < 2 ^ 32)
    (hv : v.length < 2 ^ 32) (seq : Nat) :
    wbIterate (1 :: (putLengthPrefixed k ++ (putLengthPrefixed v ++ rest))) seq =
      ((⟨k, seq, .value, v⟩ : MemEntry) :: (wbIterate rest (seq + 1)).1,
        (wbIterate rest (seq + 1)).2.1, (wbIterate rest (seq + 1)).2.2 + 1) := by
  have hlk := getLengthPrefixed_putLengthPrefixed k hk (putLengthPrefixed v ++ rest)
  have hlv := getLengthPrefixed_putLengthPrefixed v hv rest
  have hfuel : rest.length ≤
      (putLengthPrefixed k ++ (putLengthPrefixed v ++ rest)).length := by
    simp only [List.length_append]
    omega
  unfold wbIterate
  simp only [List.length_cons, wbIterateAux, hlk, hlv,
    wbIterateAux_fuel _ _ _ hfuel]
  simp

theorem wbIterate_cons_del (k rest : List Nat) (hk : k.length < 2 ^ 32) (seq : Nat) :
    wbIterate (0 :: (putLengthPrefixed k ++ rest)) seq =
      ((⟨k, seq, .deletion, []⟩ : MemEntry) :: (wbIterate rest (seq + 1)).1,
        (wbIterate rest (seq + 1)).2.1, (wbIterate rest (seq + 1)).2.2 + 1) := by
  have hlk := getLengthPrefixed_putLengthPrefixed k hk rest
  have hfuel : rest.length ≤ (putLengthPrefixed k ++ rest).length := by
    simp only [List.length_append]
    omega
  unfold wbIterate
  simp only [List.length_cons, wbIterateAux, hlk,
    wbIterateAux_fuel _ _ _ hfuel]
  norm_num

theorem wbIterate_records (ops : List WBOp) :
    ∀ seq tail, (∀ op ∈ ops, WBOpWf op) →
      wbIterate (wbRecords ops ++ tail) seq =
        ((wbEntries ops seq ++ (wbIterate tail (seq + ops.length)).1,
          (wbIterate tail (seq + ops.length)).2.1,
          ops.length + (wbIterate tail (seq + ops.length)).2.2)) := by
  induction ops with
  | nil =>
    intro seq tail _
    simp [wbRecords, wbEntries]
  | cons op ops ih =>
    intro seq tail hwf
    have hops : ∀ o ∈ ops, WBOpWf o := fun o ho => hwf o (List.mem_cons_of_mem op ho)
    have hop : WBOpWf op := hwf op (List.mem_cons_self op ops)
    have hrec : wbRecords (op :: ops) = wbEncodeOp op ++ wbRecords ops := by
      simp [wbRecords]
    rw [hrec, List.append_assoc]
    have hih := ih (seq + 1) tail hops
    cases op with
    | put k v =>
      obtain ⟨hk, hv⟩ := hop
      have hbytes : wbEncodeOp (.put k v) ++ (wbRecords ops ++ tail) =
          1 :: (putLengthPrefixed k ++ (putLengthPrefixed v ++ (wbRecords ops ++ tail))) := by
        simp [wbEncodeOp]
      rw [hbytes, wbIterate_cons_put k v _ hk hv seq, hih]
      simp only [wbEntries, wbOpEntry, List.length_cons, List.cons_append]
      have hseq : seq + 1 + ops.length = seq + (ops.length + 1) := by omega
      rw [hseq]
      have hcnt : ops.length + (wbIterate tail (seq + (ops.length + 1))).2.2 + 1 =
          ops.length + 1 + (wbIterate tail (seq + (ops.length + 1))).2.2 := by omega
      rw [hcnt]
    | del k =>
      have hk : k.length < 2 ^ 32 := hop
      have hbytes : wbEncodeOp (.del k) ++ (wbRecords ops ++ tail) =
          0 :: (putLengthPrefixed k ++ (wbRecords ops ++ tail)) := by
        simp [wbEncodeOp]
      rw [hbytes, wbIterate_cons_del k _ hk seq, hih]
      simp only [wbEntries, wbOpEntry, List.length_cons, List.cons_append]
      have hseq : seq + 1 + ops.length = seq + (ops.length + 1) := by omega
      rw [hseq]
      have hcnt : ops.length + (wbIterate tail (seq + (ops.length + 1))).2.2 + 1 =
          ops.length + 1 + (wbIterate tail (seq + (ops.length + 1))).2.2 := by omega
      rw [hcnt]

theorem wbEntries_length (ops : List WBOp) : ∀ s, (wbEntries ops s).length = ops.length := by
  induction ops with
  | nil => intro s; rfl
  | cons op ops ih => intro s; simp [wbEntries, ih]

theorem wbEntries_get (ops : List WBOp) :
    ∀ s i (hi : i < ops.length),
      (wbEntries ops s).get ⟨i, by rw [wbEntries_length]; exact hi⟩ =
        wbOpEntry (s + i) (ops.get ⟨i, hi⟩) := by
  induction ops with
  | nil => intro s i hi; simp at hi
  | cons op ops ih =>
    intro s i hi
    cases i with
    | zero => simp [wbEntries]
    | succ i =>
      have hi' : i < ops.length := by simpa using hi
      have := ih (s + 1) i hi'
      simp only [wbEntries, List.get_cons_succ, List.get]
      rw [show s + 1 + i = s + (i + 1) by omega] at this
      exact this

theorem wbHeader_drop12 (s c : Nat) (X : List Nat) :
    (encodeFixed64 s ++ encodeFixed32 c ++ X).drop 12 = X := by
  rw [List.append_assoc]
  have h8 : (encodeFixed64 s).length = 8 := rfl
  simp [encodeFixed64, encodeFixed32, List.drop_append]

theorem wbHeader_length (s c : Nat) (X : List Nat) :
    (encodeFixed64 s ++ encodeFixed32 c ++ X).length = 12 + X.length := by
  simp [encodeFixed64, encodeFixed32]
  omega

theorem wbHeader_sequence (s c : Nat) (X : List Nat) (hs : s < 2 ^ 64) :
    wbSequence (encodeFixed64 s ++ encodeFixed32 c ++ X) = s := by
  rw [wbSequence, List.append_assoc]
  exact decodeFixed64_encodeFixed64 s hs _

theorem wbHeader_count (s c : Nat) (X : List Nat) (hc : c < 2 ^ 32) :
    wbCount (encodeFixed64 s ++ encodeFixed32 c ++ X) = c := by
  rw [wbCount, List.append_assoc]
  have h8 : (encodeFixed64 s).length = 8 := rfl
  rw [← h8, List.drop_left]
  exact decodeFixed32_encodeFixed32 c hc X

theorem wbIterate_nil (seq : Nat) : wbIterate [] seq = ([], .ok, 0) := rfl

theorem wbReplay_header (s c : Nat) (X : List Nat) (hs : s < 2 ^ 64) :
    wbReplay (encodeFixed64 s ++ encodeFixed32 c ++ X) = wbIterate X s := by
  rw [wbReplay, wbHeader_drop12, wbHeader_sequence s c X hs]
  rfl

/-- C3: replaying a WriteBatch with base sequence `s` and records
`r_0 .. r_{n-1}` performs the `Add` calls `wbEntries ops s`, inserting
record `r_i` at sequence `s + i` — Put with type Value, Delete with type
Deletion — with OK status; in particular the spec's three-record batch at
base 100 yields the forward scan Put(baz,boo)@102, Delete(box)@101,
Put(foo,bar)@100. -/
theorem wbInsertInto_wbMake (s : Nat) (ops : List WBOp) (hs : s < 2 ^ 64)
    (hn : ops.length < 2 ^ 32) (hwf : ∀ op ∈ ops, WBOpWf op) :
    (wbReplay (wbMake s ops)).1 = wbEntries ops s ∧
    (∀ i (hi : i < ops.length),
      (wbEntries ops s).get ⟨i, by rw [wbEntries_length]; exact hi⟩ =
        wbOpEntry (s + i) (ops.get ⟨i, hi⟩)) ∧
    wbInsertInto (wbMake s ops) [] = ((wbEntries ops s).foldl memTableAdd [], .ok) ∧
    wbInsertInto (wbSetSequence
        (wbPut (wbDelete (wbPut wbEmpty [102, 111, 111] [98, 97, 114]) [98, 111, 120])
          [98, 97, 122] [98, 111, 111]) 100) [] =
      ([⟨[98, 97, 122], 102, .value, [98, 111, 111]⟩,
        ⟨[98, 111, 120], 101, .deletion, []⟩,
        ⟨[102, 111, 111], 100, .value, [98, 97, 114]⟩], .ok) := by
  have hiter : wbIterate (wbRecords ops) s = (wbEntries ops s, .ok, ops.length) := by
    have h := wbIterate_records ops s [] hwf
    rw [List.append_nil] at h
    rw [h, wbIterate_nil]
    simp
  have hreplay : wbReplay (wbMake s ops) = (wbEntries ops s, .ok, ops.length) := by
    rw [wbMake, wbReplay_header s ops.length (wbRecords ops) hs, hiter]
  refine ⟨by rw [hreplay], wbEntries_get ops s, ?_, by decide⟩
  rw [wbInsertInto, if_neg (by rw [wbMake, wbHeader_length]; omega), hreplay]
  have hcountb : wbCount (wbMake s ops) = ops.length :=
    wbHeader_count s ops.length (wbRecords ops) hn
  simp [hcountb]

/-- Witness for C3 at the spec's three-record batch. -/
theorem wbInsertInto_wbMake_witness :
    (wbReplay (wbMake 100
        [.put [102, 111, 111] [98, 97, 114], .del [98, 111, 120],
         .put [98, 97, 122] [98, 111, 111]])).1 =
      wbEntries
        [.put [102, 111, 111] [98, 97, 114], .del [98, 111, 120],
         .put [98, 97, 122] [98, 111, 111]] 100 :=
  (wbInsertInto_wbMake 100
    [.put [102, 111, 111] [98, 97, 114], .del [98, 111, 120],
     .put [98, 97, 122] [98, 111, 111]]
    (by norm_num) (by norm_num) (by decide)).1

/-- C4: if the records region of a WriteBatch ends in bytes on which the
record loop reports Corruption, `InsertInto` returns Corruption and the
memtable receives exactly the entries of the records preceding the failing
point; concretely, the two-record batch at base 200 with its final byte
removed replays as Put(foo,bar)@200 followed by a parse error. -/
theorem wbInsertInto_corruption (s c : Nat) (ops : List WBOp) (tail : List Nat)
    (hs : s < 2 ^ 64) (hwf : ∀ op ∈ ops, WBOpWf op)
    (htail : (wbIterate tail (s + ops.length)).2.1 = .corruption) :
    wbInsertInto (encodeFixed64 s ++ encodeFixed32 c ++ (wbRecords ops ++ tail)) [] =
      ((wbEntries ops s ++ (wbIterate tail (s + ops.length)).1).foldl memTableAdd [],
        .corruption) ∧
    wbInsertInto
        (wbSetSequence (wbDelete (wbPut wbEmpty [102, 111, 111] [98, 97, 114])
          [98, 111, 120]) 200).dropLast [] =
      ([⟨[102, 111, 111], 200, .value, [98, 97, 114]⟩], .corruption) := by
  constructor
  · have hreplay : wbReplay (encodeFixed64 s ++ encodeFixed32 c ++ (wbRecords ops ++ tail)) =
        wbIterate (wbRecords ops ++ tail) s :=
      wbReplay_header s c (wbRecords ops ++ tail) hs
    rw [wbInsertInto, if_neg (by rw [wbHeader_length]; omega), hreplay,
      wbIterate_records ops s tail hwf]
    simp only [htail]
  · decide

/-- C5: `Append` concatenates the argument's records after the receiver's,
adds the record counts, and keeps the receiver's base sequence (the
argument's base is ignored), so replay numbers all records consecutively
from the receiver's base; concretely, appending Put(a,va) to an empty
batch at base 200 replays as Put(a,va)@200, and appending a cleared batch
re-filled with Put(b,vb) then replays as Put(a,va)@200 Put(b,vb)@201. -/
theorem wbAppend_spec (b1 b2 : List Nat) (h1 : 12 ≤ b1.length)
    (hc : wbCount b1 + wbCount b2 < 2 ^ 32) :
    wbCount (wbAppend b1 b2) = wbCount b1 + wbCount b2 ∧
    wbSequence (wbAppend b1 b2) = wbSequence b1 ∧
    (wbAppend b1 b2).drop 12 = b1.drop 12 ++ b2.drop 12 ∧
    wbInsertInto
        (wbAppend (wbSetSequence wbEmpty 200)
          (wbPut (wbSetSequence wbEmpty 300) [97] [118, 97])) [] =
      ([⟨[97], 200, .value, [118, 97]⟩], .ok) ∧
    wbInsertInto
        (wbAppend
          (wbAppend (wbSetSequence wbEmpty 200)
            (wbPut (wbSetSequence wbEmpty 300) [97] [118, 97]))
          (wbPut wbEmpty [98] [118, 98])) [] =
      ([⟨[97], 200, .value, [118, 97]⟩, ⟨[98], 201, .value, [118, 98]⟩], .ok) := by
  have htake : (b1.take 8).length = 8 := by
    rw [List.length_take]
    omega
  have hX : wbAppend b1 b2 =
      b1.take 8 ++ (encodeFixed32 (wbCount b1 + wbCount b2) ++
        (b1.drop 12 ++ b2.drop 12)) := by
    rw [wbAppend, wbSetCount]
    simp [List.append_assoc]
  refine ⟨?_, ?_, ?_, by decide, by decide⟩
  · rw [hX, wbCount, List.drop_left' htake]
    exact decodeFixed32_encodeFixed32 _ hc _
  · rw [hX, wbSequence, wbSequence]
    have hg : ∀ i, i < 8 →
        (b1.take 8 ++ (encodeFixed32 (wbCount b1 + wbCount b2) ++
          (b1.drop 12 ++ b2.drop 12))).getD i 0 = b1.getD i 0 := by
      intro i hi
      rw [List.getD_eq_getElem?_getD, List.getD_eq_getElem?_getD,
        List.getElem?_append_left (by omega)]
      congr 1
      exact List.getElem?_take_of_lt hi
    unfold decodeFixed64
    rw [hg 0 (by norm_num), hg 1 (by norm_num), hg 2 (by norm_num), hg 3 (by norm_num),
      hg 4 (by norm_num), hg 5 (by norm_num), hg 6 (by norm_num), hg 7 (by norm_num)]
  · have h12 : (b1.take 8 ++ encodeFixed32 (wbCount b1 + wbCount b2)).length = 12 := by
      rw [List.length_append, htake, length_encodeFixed32]
    rw [hX, ← List.append_assoc, List.drop_left' h12]

/-- Witness for C4: base 200, record Put(foo,bar) followed by the
truncated Delete(box) record. -/
theorem wbInsertInto_corruption_witness :
    wbInsertInto (encodeFixed64 200 ++ encodeFixed32 2 ++
        (wbRecords [.put [102, 111, 111] [98, 97, 114]] ++ [0, 3, 98, 111])) [] =
      ((wbEntries [.put [102, 111, 111] [98, 97, 114]] 200 ++
          (wbIterate [0, 3, 98, 111]
            (200 + ([.put [102, 111, 111] [98, 97, 114]] : List WBOp).length)).1).foldl
        memTableAdd [], .corruption) :=
  (wbInsertInto_corruption 200 2 [.put [102, 111, 111] [98, 97, 114]] [0, 3, 98, 111]
    (by norm_num) (by decide) (by decide)).1

/-- Witness for C5: append a one-record batch at base 300 to an empty batch
at base 200. -/
theorem wbAppend_spec_witness :
    wbCount (wbAppend (wbSetSequence wbEmpty 200)
        (wbPut (wbSetSequence wbEmpty 300) [97] [118, 97])) =
      wbCount (wbSetSequence wbEmpty 200) +
        wbCount (wbPut (wbSetSequence wbEmpty 300) [97] [118, 97]) :=
  (wbAppend_spec (wbSetSequence wbEmpty 200)
    (wbPut (wbSetSequence wbEmpty 300) [97] [118, 97]) (by decide) (by decide)).1

theorem valueType_tagBits_le (vt : ValueType) : vt.tagBits ≤ 1 := by
  cases vt <;> simp [ValueType.tagBits]

/-- C6: whenever a memtable built by a sequence of `Add` calls holds two
entries with the same user key, a forward scan visits the entry with the
larger sequence number first, because the internal-key comparator orders
equal user keys by descending sequence then descending type. -/
theorem memTable_same_key_seq_desc (es : List MemEntry) (i j : Nat) (hij : i < j)
    (hj : j < (es.foldl memTableAdd []).length)
    (hkey : ((es.foldl memTableAdd []).get ⟨i, Nat.lt_trans hij hj⟩).userKey =
      ((es.foldl memTableAdd []).get ⟨j, hj⟩).userKey) :
    ((es.foldl memTableAdd []).get ⟨j, hj⟩).seq ≤
      ((es.foldl memTableAdd []).get ⟨i, Nat.lt_trans hij hj⟩).seq := by
  have hsorted : (es.foldl memTableAdd []).Sorted internalLE :=
    memTable_sorted es [] List.sorted_nil
  have hrel : internalLE ((es.foldl memTableAdd []).get ⟨i, Nat.lt_trans hij hj⟩)
      ((es.foldl memTableAdd []).get ⟨j, hj⟩) :=
    hsorted.rel_get_of_lt (Fin.mk_lt_mk.mpr hij)
  rcases hrel with hlt | ⟨_, htag⟩
  · rw [hkey, byteCompare_self] at hlt
    simp at hlt
  · unfold MemEntry.tag at htag
    have t1 := valueType_tagBits_le
      ((es.foldl memTableAdd []).get ⟨i, Nat.lt_trans hij hj⟩).vt
    have t2 := valueType_tagBits_le ((es.foldl memTableAdd []).get ⟨j, hj⟩).vt
    omega

/-- Witness for C6: two Put(b,vb) entries at sequences 202 and 201. -/
theorem memTable_same_key_seq_desc_witness :
    ((([⟨[98], 202, .value, [118, 98]⟩, ⟨[98], 201, .value, [118, 98]⟩] :
        List MemEntry).foldl memTableAdd []).get ⟨1, by decide⟩).seq ≤
      ((([⟨[98], 202, .value, [118, 98]⟩, ⟨[98], 201, .value, [118, 98]⟩] :
        List MemEntry).foldl memTableAdd []).get ⟨0, by decide⟩).seq :=
  memTable_same_key_seq_desc
    [⟨[98], 202, .value, [118, 98]⟩, ⟨[98], 201, .value, [118, 98]⟩]
    0 1 (by decide) (by decide) (by decide)

/-! ## Block codec (spec sections 4.1 and 6)

Modelled from the spec: the block builder/reader sources are not part of
the repository snapshot (only `table_test.cc`); the model follows spec
sections 4.1 and 6. -/

/-- Length of the longest common prefix of two byte strings. -/
def commonPrefixLen : List Nat → List Nat → Nat
  | a :: as, b :: bs => if a = b then commonPrefixLen as bs + 1 else 0
  | _, _ => 0

theorem commonPrefixLen_le_left (a b : List Nat) : commonPrefixLen a b ≤ a.length := by
  induction a generalizing b with
  | nil => cases b <;> simp [commonPrefixLen]
  | cons x xs ih =>
    cases b with
    | nil => simp [commonPrefixLen]
    | cons y ys =>
      by_cases h : x = y <;> simp [commonPrefixLen, h]
      exact ih ys

theorem commonPrefixLen_le_right (a b : List Nat) : commonPrefixLen a b ≤ b.length := by
  induction a generalizing b with
  | nil => cases b <;> simp [commonPrefixLen]
  | cons x xs ih =>
    cases b with
    | nil => simp [commonPrefixLen]
    | cons y ys =>
      by_cases h : x = y <;> simp [commonPrefixLen, h]
      exact ih ys

theorem commonPrefixLen_take (a b : List Nat) :
    a.take (commonPrefixLen a b) = b.take (commonPrefixLen a b) := by
  induction a generalizing b with
  | nil => cases b <;> simp [commonPrefixLen]
  | cons x xs ih =>
    cases b with
    | nil => simp [commonPrefixLen]
    | cons y ys =>
      by_cases h : x = y
      · simp [commonPrefixLen, h, ih ys]
      · simp [commonPrefixLen, h]

/-- The state of a `BlockBuilder`: entry bytes, restart offsets, the count
of entries since the last restart, and the last added key. -/
structure BlockBuilder where
  buffer : List Nat
  restarts : List Nat
  counter : Nat
  lastKey : List Nat

/-- A fresh builder: empty buffer and the seeded restart at offset 0. -/
def BlockBuilder.empty : BlockBuilder := ⟨[], [0], 0, []⟩

/-- Modelled from the spec: one block entry
`shared:varint32 unshared:varint32 value_len:varint32 key_suffix value`. -/
def encodeEntry (shared : Nat) (key value : List Nat) : List Nat :=
  encodeVarint32 shared ++ (encodeVarint32 (key.length - shared) ++
    (encodeVarint32 value.length ++ (key.drop shared ++ value)))

/-- Modelled from the spec: `BlockBuilder::Add`: within a restart interval
the key shares its prefix with the previous key; every `interval`-th entry
starts a restart: `shared = 0` and the current offset joins the restart
array. -/
def blockAdd (interval : Nat) (b : BlockBuilder) (key value : List Nat) : BlockBuilder :=
  if b.counter < interval then
    ⟨b.buffer ++ encodeEntry (commonPrefixLen b.lastKey key) key value,
      b.restarts, b.counter + 1, key⟩
  else
    ⟨b.buffer ++ encodeEntry 0 key value,
      b.restarts ++ [b.buffer.length], 1, key⟩

/-- Add a whole key/value sequence. -/
def blockAddAll (interval : Nat) (b : BlockBuilder)
    (kvs : List (List Nat × List Nat)) : BlockBuilder :=
  kvs.foldl (fun st kv => blockAdd interval st kv.1 kv.2) b

/-- Modelled from the spec: `BlockBuilder::Finish`: entries, the restart
array (little-endian u32 each), the restart count. -/
def blockFinish (b : BlockBuilder) : List Nat :=
  b.buffer ++ ((b.restarts.map encodeFixed32).flatten ++ encodeFixed32 b.restarts.length)

/-- Build a block from scratch. -/
def buildBlock (interval : Nat) (kvs : List (List Nat × List Nat)) : List Nat :=
  blockFinish (blockAddAll interval BlockBuilder.empty kvs)

/-- Modelled from the spec: `DecodeEntry`: three varints, bounds checks,
and the key reconstructed as `lastKey[0:shared] ++ suffix`; fails when
`shared` exceeds the previous key or the suffix and value overrun the
input. -/
def decodeEntry (bs lastKey : List Nat) : Option ((List Nat × List Nat) × List Nat) :=
  match decodeVarint32 bs with
  | none => none
  | some (shared, r1) =>
    match decodeVarint32 r1 with
    | none => none
    | some (unshared, r2) =>
      match decodeVarint32 r2 with
      | none => none
      | some (vlen, r3) =>
        if shared ≤ lastKey.length ∧ unshared + vlen ≤ r3.length then
          some ((lastKey.take shared ++ r3.take unshared,
            (r3.drop unshared).take vlen), (r3.drop unshared).drop vlen)
        else none

/-- Parse a whole entries region front to back, tracking the running key;
returns the decoded pairs and the final key.  Fuel-indexed; any fuel at
least the byte count gives the parse. -/
def parseEntriesAux : Nat → List Nat → List Nat →
    Option (List (List Nat × List Nat) × List Nat)
  | _, [], lastKey => some ([], lastKey)
  | 0, _ :: _, _ => none
  | fuel + 1, b :: bs, lastKey =>
    match decodeEntry (b :: bs) lastKey with
    | none => none
    | some (kv, rest) =>
      match parseEntriesAux fuel rest kv.1 with
      | none => none
      | some (es, fk) => some (kv :: es, fk)

/-- Parse with canonical fuel. -/
def parseEntries (bs lastKey : List Nat) :
    Option (List (List Nat × List Nat) × List Nat) :=
  parseEntriesAux bs.length bs lastKey

theorem decodeEntry_length {bs lastKey : List Nat} {kv : List Nat × List Nat}
    {rest : List Nat} (h : decodeEntry bs lastKey = some (kv, rest)) :
    rest.length < bs.length := by
  unfold decodeEntry at h
  cases h1 : decodeVarint32 bs with
  | none => simp [h1] at h
  | some p1 =>
    obtain ⟨shared, r1⟩ := p1
    simp only [h1] at h
    cases h2 : decodeVarint32 r1 with
    | none => simp [h2] at h
    | some p2 =>
      obtain ⟨unshared, r2⟩ := p2
      simp only [h2] at h
      cases h3 : decodeVarint32 r2 with
      | none => simp [h3] at h
      | some p3 =>
        obtain ⟨vlen, r3⟩ := p3
        simp only [h3] at h
        have l1 := decodeVarintAux_length 5 0 0 bs shared r1 h1
        have l2 := decodeVarintAux_length 5 0 0 r1 unshared r2 h2
        have l3 := decodeVarintAux_length 5 0 0 r2 vlen r3 h3
        by_cases hc : shared ≤ lastKey.length ∧ unshared + vlen ≤ r3.length
        · simp only [if_pos hc, Option.some_inj] at h
          have hrest : rest = (r3.drop unshared).drop vlen := by
            have := congrArg Prod.snd h
            simpa using this.symm
          rw [hrest]
          simp only [List.length_drop]
          omega
        · simp [if_neg hc] at h

theorem decodeEntry_frame {bs lastKey : List Nat} {kv : List Nat × List Nat}
    {rest : List Nat} (h : decodeEntry bs lastKey = some (kv, rest)) (tail : List Nat) :
    decodeEntry (bs ++ tail) lastKey = some (kv, rest ++ tail) := by
  unfold decodeEntry at h ⊢
  cases h1 : decodeVarint32 bs with
  | none => simp [h1] at h
  | some p1 =>
    obtain ⟨shared, r1⟩ := p1
    simp only [h1] at h
    simp only [decodeVarint32_frame h1 tail]
    cases h2 : decodeVarint32 r1 with
    | none => simp [h2] at h
    | some p2 =>
      obtain ⟨unshared, r2⟩ := p2
      simp only [h2] at h
      simp only [decodeVarint32_frame h2 tail]
      cases h3 : decodeVarint32 r2 with
      | none => simp [h3] at h
      | some p3 =>
        obtain ⟨vlen, r3⟩ := p3
        simp only [h3] at h
        simp only [decodeVarint32_frame h3 tail]
        by_cases hc : shared ≤ lastKey.length ∧ unshared + vlen ≤ r3.length
        · have hc' : shared ≤ lastKey.length ∧ unshared + vlen ≤ (r3 ++ tail).length := by
            simp only [List.length_append]
            omega
          rw [if_pos hc] at h
          rw [if_pos hc']
          have ht : (r3 ++ tail).take unshared = r3.take unshared :=
            List.take_append_of_le_length (by omega)
          have hd : (r3 ++ tail).drop unshared = r3.drop unshared ++ tail :=
            List.drop_append_of_le_length (by omega)
          have htv : (r3.drop unshared ++ tail).take vlen = (r3.drop unshared).take vlen :=
            List.take_append_of_le_length (by simp only [List.length_drop]; omega)
          have hdv : (r3.drop unshared ++ tail).drop vlen = (r3.drop unshared).drop vlen ++ tail :=
            List.drop_append_of_le_length (by simp only [List.length_drop]; omega)
          rw [ht, hd, htv, hdv]
          simp only [Option.some_inj] at h ⊢
          have hkv := congrArg Prod.fst h
          have hrest := congrArg Prod.snd h
          simp only [] at hkv hrest
          rw [← hkv, ← hrest]
        · rw [if_neg hc] at h
          simp at h

theorem decodeEntry_encodeEntry (shared : Nat) (key value tail lastKey : List Nat)
    (hsk : shared ≤ key.length) (hsl : shared ≤ lastKey.length)
    (htake : lastKey.take shared = key.take shared)
    (hkey : key.length < 2 ^ 32) (hval : value.length < 2 ^ 32) :
    decodeEntry (encodeEntry shared key value ++ tail) lastKey =
      some ((key, value), tail) := by
  unfold encodeEntry decodeEntry
  rw [List.append_assoc, List.append_assoc, List.append_assoc]
  simp only [decodeVarint32_encodeVarint32 shared (by omega),
    decodeVarint32_encodeVarint32 (key.length - shared) (by omega),
    decodeVarint32_encodeVarint32 value.length hval]
  have hdk : (key.drop shared).length = key.length - shared := by simp
  have hcond : shared ≤ lastKey.length ∧
      key.length - shared + value.length ≤ (key.drop shared ++ value ++ tail).length := by
    constructor
    · exact hsl
    · simp only [List.length_append, hdk]
      omega
  rw [if_pos hcond]
  have h1 : (key.drop shared ++ value ++ tail).take (key.length - shared) =
      key.drop shared := by
    rw [List.take_append_of_le_length (by simp only [List.length_append, hdk]; omega),
      List.take_append_of_le_length (by rw [hdk]), ← hdk, List.take_length]
  have h2 : (key.drop shared ++ value ++ tail).drop (key.length - shared) =
      value ++ tail := by
    rw [List.drop_append_of_le_length (by simp only [List.length_append, hdk]; omega),
      List.drop_left' hdk]
  rw [h1, h2]
  have h3 : (value ++ tail).take value.length = value := List.take_left value tail
  have h4 : (value ++ tail).drop value.length = tail := List.drop_left value tail
  rw [h3, h4, htake, List.take_append_drop]

theorem parseEntriesAux_fuel (fuel : Nat) :
    ∀ bs lastKey, bs.length ≤ fuel →
      parseEntriesAux fuel bs lastKey = parseEntriesAux bs.length bs lastKey := by
  induction fuel using Nat.strong_induction_on with
  | _ fuel ih =>
    intro bs lastKey hlen
    cases bs with
    | nil => cases fuel <;> rfl
    | cons b rest =>
      cases fuel with
      | zero => simp at hlen
      | succ f =>
        simp only [List.length_cons]
        cases hd : decodeEntry (b :: rest) lastKey with
        | none => simp only [parseEntriesAux, hd]
        | some p =>
          obtain ⟨kv, r⟩ := p
          have hr : r.length < (b :: rest).length := decodeEntry_length hd
          simp only [List.length_cons] at hr
          have hlen' : rest.length + 1 ≤ f + 1 := by simpa using hlen
          have e1 : parseEntriesAux f r kv.1 = parseEntriesAux r.length r kv.1 :=
            ih f (by omega) r kv.1 (by omega)
          have e2 : parseEntriesAux rest.length r kv.1 = parseEntriesAux r.length r kv.1 :=
            ih rest.length (by omega) r kv.1 (by omega)
          simp only [parseEntriesAux, hd, e1, e2]

theorem parseEntries_snoc_aux (e key value : List Nat) (n : Nat) :
    ∀ X lastKey L fk, X.length ≤ n →
      parseEntries X lastKey = some (L, fk) →
      decodeEntry e fk = some ((key, value), []) →
      parseEntries (X ++ e) lastKey = some (L ++ [(key, value)], key) := by
  induction n using Nat.strong_induction_on with
  | _ n ih =>
    intro X lastKey L fk hn h he
    cases X with
    | nil =>
      unfold parseEntries at h
      simp only [parseEntriesAux, Option.some_inj] at h
      have hL : L = [] := by
        have := congrArg Prod.fst h
        simpa using this.symm
      have hfk : fk = lastKey := by
        have := congrArg Prod.snd h
        simpa using this.symm
      subst hL hfk
      cases he' : e with
      | nil =>
        rw [he'] at he
        simp [decodeEntry, decodeVarint32, decodeVarintAux] at he
      | cons b bs =>
        rw [he'] at he
        unfold parseEntries
        simp only [List.nil_append, List.length_cons, parseEntriesAux, he]
    | cons x xs =>
      unfold parseEntries at h
      simp only [List.length_cons] at h hn
      cases hd : decodeEntry (x :: xs) lastKey with
      | none => simp [parseEntriesAux, hd] at h
      | some p =>
        obtain ⟨kv, r⟩ := p
        simp only [parseEntriesAux, hd] at h
        cases hp : parseEntriesAux xs.length r kv.1 with
        | none => rw [hp] at h; simp at h
        | some q =>
          obtain ⟨es, fk'⟩ := q
          rw [hp] at h
          simp only [Option.some_inj] at h
          have hr : r.length < xs.length + 1 := by
            have := decodeEntry_length hd
            simpa using this
          have hrfuel : parseEntriesAux xs.length r kv.1 = parseEntries r kv.1 := by
            unfold parseEntries
            exact parseEntriesAux_fuel xs.length r kv.1 (by omega)
          have hfkeq : fk' = fk := by
            have := congrArg Prod.snd h
            simpa using this
          have hparse_r : parseEntries r kv.1 = some (es, fk) := by
            rw [← hrfuel, hp, hfkeq]
          have hrec := ih r.length (by omega) r kv.1 es fk le_rfl hparse_r he
          have hL : kv :: es = L := by
            have := congrArg Prod.fst h
            simpa using this
          have hde : decodeEntry (x :: (xs ++ e)) lastKey = some (kv, r ++ e) := by
            have := decodeEntry_frame hd e
            rwa [List.cons_append] at this
          unfold parseEntries
          simp only [List.cons_append, List.length_cons, List.length_append]
          have hfuel2 : parseEntriesAux (xs.length + e.length) (r ++ e) kv.1 =
              parseEntries (r ++ e) kv.1 := by
            unfold parseEntries
            refine parseEntriesAux_fuel _ _ _ ?_
            simp only [List.length_append]
            omega
          simp only [parseEntriesAux, hde, hfuel2, hrec]
          rw [← hL]
          simp

theorem parseEntries_snoc {X lastKey : List Nat} {L : List (List Nat × List Nat)}
    {fk : List Nat} (h : parseEntries X lastKey = some (L, fk)) {e key value : List Nat}
    (he : decodeEntry e fk = some ((key, value), [])) :
    parseEntries (X ++ e) lastKey = some (L ++ [(key, value)], key) :=
  parseEntries_snoc_aux e key value X.length X lastKey L fk le_rfl h he

/-- The key of the last pair of `es`, or `k` when `es` is empty: the
running key after parsing `es`. -/
def lastKeyOf (es : List (List Nat × List Nat)) (k : List Nat) : List Nat :=
  ((es.map Prod.fst).getLast?).getD k

theorem lastKeyOf_nil (k : List Nat) : lastKeyOf [] k = k := rfl

theorem lastKeyOf_concat (es : List (List Nat × List Nat)) (kv : List Nat × List Nat)
    (k : List Nat) : lastKeyOf (es ++ [kv]) k = kv.1 := by
  unfold lastKeyOf
  rw [List.map_append, List.map_singleton, List.getLast?_concat]
  rfl

theorem lastKeyOf_indep (es : List (List Nat × List Nat)) (hne : es ≠ [])
    (k k' : List Nat) : lastKeyOf es k = lastKeyOf es k' := by
  unfold lastKeyOf
  have : (es.map Prod.fst).getLast? ≠ none := by
    cases hes : es.map Prod.fst with
    | nil => simp [List.map_eq_nil_iff] at hes; exact absurd hes hne
    | cons a l => simp [List.getLast?]
  cases hg : (es.map Prod.fst).getLast? with
  | none => exact absurd hg this
  | some v => rfl

theorem lastKeyOf_drop (es : List (List Nat × List Nat)) (m : Nat)
    (hm : m < es.length) (k : List Nat) : lastKeyOf (es.drop m) k = lastKeyOf es k := by
  unfold lastKeyOf
  have hsplit : es.map Prod.fst = (es.map Prod.fst).take m ++ (es.map Prod.fst).drop m :=
    (List.take_append_drop m (es.map Prod.fst)).symm
  have hne : (es.map Prod.fst).drop m ≠ [] := by
    intro hcon
    have := congrArg List.length hcon
    simp at this
    omega
  conv_rhs => rw [hsplit]
  rw [List.map_drop, List.getLast?_append_of_ne_nil _ hne]

/-- The invariant of reachable builder states: the builder holds the
entries `es`, the whole buffer parses to them from any initial key (the
first entry shares nothing), and every restart offset starts a clean
suffix parse. -/
def BuilderInv (st : BlockBuilder) (es : List (List Nat × List Nat)) : Prop :=
  st.lastKey = lastKeyOf es [] ∧
  (∀ k, parseEntries st.buffer k = some (es, lastKeyOf es k)) ∧
  (∀ o ∈ st.restarts, o ≤ st.buffer.length ∧ ∃ m, m ≤ es.length ∧
    (m = es.length → es = []) ∧
    (∀ k, parseEntries (st.buffer.drop o) k = some (es.drop m, lastKeyOf (es.drop m) k)))

theorem builderInv_empty : BuilderInv BlockBuilder.empty [] := by
  refine ⟨rfl, fun k => rfl, fun o ho => ?_⟩
  simp only [BlockBuilder.empty, List.mem_singleton] at ho
  subst ho
  exact ⟨by simp [BlockBuilder.empty], 0, by simp, fun _ => rfl, fun k => rfl⟩

theorem decodeEntry_encodeEntry_nil (shared : Nat) (key value lastKey : List Nat)
    (hsk : shared ≤ key.length) (hsl : shared ≤ lastKey.length)
    (htake : lastKey.take shared = key.take shared)
    (hkey : key.length < 2 ^ 32) (hval : value.length < 2 ^ 32) :
    decodeEntry (encodeEntry shared key value) lastKey = some ((key, value), []) := by
  have := decodeEntry_encodeEntry shared key value [] lastKey hsk hsl htake hkey hval
  simpa using this

theorem parseEntries_nil (k : List Nat) : parseEntries [] k = some ([], k) := rfl

theorem builderInv_add (interval : Nat) (st : BlockBuilder)
    (es : List (List Nat × List Nat)) (key value : List Nat)
    (hinv : BuilderInv st es) (hkey : key.length < 2 ^ 32) (hval : value.length < 2 ^ 32) :
    BuilderInv (blockAdd interval st key value) (es ++ [(key, value)]) := by
  obtain ⟨hlast, hp1, hp2⟩ := hinv
  -- entry compatibility: in either branch, the new entry decodes against
  -- the running key produced by any prior parse
  have hshared_lt : ∀ fk, (es ≠ [] → fk = st.lastKey) →
      decodeEntry (encodeEntry (commonPrefixLen st.lastKey key) key value) fk =
        some ((key, value), []) := by
    intro fk hfk
    by_cases hes : es = []
    · have hlk : st.lastKey = [] := by rw [hlast, hes, lastKeyOf_nil]
      rw [hlk]
      exact decodeEntry_encodeEntry_nil _ key value fk (by simp [commonPrefixLen])
        (by simp [commonPrefixLen]) (by simp [commonPrefixLen]) hkey hval
    · rw [hfk hes]
      exact decodeEntry_encodeEntry_nil _ key value st.lastKey
        (commonPrefixLen_le_right _ _) (commonPrefixLen_le_left _ _)
        (commonPrefixLen_take _ _) hkey hval
  have hshared0 : ∀ fk,
      decodeEntry (encodeEntry 0 key value) fk = some ((key, value), []) := fun fk =>
    decodeEntry_encodeEntry_nil 0 key value fk (Nat.zero_le _) (Nat.zero_le _)
      (by simp) hkey hval
  have hlast' : lastKeyOf (es ++ [(key, value)]) [] = key := lastKeyOf_concat es _ []
  -- suffix-parse update shared by both branches
  have hsuffix : ∀ (sh : Nat),
      (∀ fk, (es ≠ [] → fk = st.lastKey) →
        decodeEntry (encodeEntry sh key value) fk = some ((key, value), [])) →
      ∀ o ∈ st.restarts,
        o ≤ (st.buffer ++ encodeEntry sh key value).length ∧
        ∃ m, m ≤ (es ++ [(key, value)]).length ∧
        (m = (es ++ [(key, value)]).length → es ++ [(key, value)] = []) ∧
        (∀ k, parseEntries ((st.buffer ++ encodeEntry sh key value).drop o) k =
          some ((es ++ [(key, value)]).drop m,
            lastKeyOf ((es ++ [(key, value)]).drop m) k)) := by
    intro sh hdec o ho
    obtain ⟨hole, m, hm, hmes, hparse⟩ := hp2 o ho
    have hlen1 : (es ++ [(key, value)]).length = es.length + 1 := by simp
    refine ⟨by simp only [List.length_append]; omega, m, ?_, ?_, ?_⟩
    · omega
    · intro hcon
      exfalso
      omega
    · intro k
      have hdrop : (st.buffer ++ encodeEntry sh key value).drop o =
          st.buffer.drop o ++ encodeEntry sh key value :=
        List.drop_append_of_le_length hole
      have hdropes : (es ++ [(key, value)]).drop m = es.drop m ++ [(key, value)] :=
        List.drop_append_of_le_length hm
      have hfk : es ≠ [] → lastKeyOf (es.drop m) k = st.lastKey := by
        intro hne
        by_cases hmlt : m < es.length
        · rw [lastKeyOf_drop es m hmlt k, hlast]
          exact lastKeyOf_indep es hne k []
        · have : m = es.length := by omega
          exact absurd (hmes this) hne
      have hdec' : decodeEntry (encodeEntry sh key value) (lastKeyOf (es.drop m) k) =
          some ((key, value), []) := by
        by_cases hes : es = []
        · have hm0 : m = 0 := by
            have := hm
            rw [hes] at this
            simpa using this
          refine hdec _ (fun hne => absurd hes hne)
        · exact hdec _ (fun _ => hfk hes)
      rw [hdrop, hdropes, parseEntries_snoc (hparse k) hdec',
        lastKeyOf_concat (es.drop m) _ k]
  constructor
  · -- last key
    unfold blockAdd
    split <;> simpa using hlast'.symm
  constructor
  · -- whole-buffer parse
    intro k
    unfold blockAdd
    split
    · have := parseEntries_snoc (hp1 k) (hshared_lt (lastKeyOf es k)
        (fun hne => (hlast ▸ lastKeyOf_indep es hne k [])))
      simpa [lastKeyOf_concat] using this
    · have := parseEntries_snoc (hp1 k) (hshared0 (lastKeyOf es k))
      simpa [lastKeyOf_concat] using this
  · -- restart offsets
    intro o ho
    unfold blockAdd at ho ⊢
    by_cases hcnt : st.counter < interval
    · simp only [if_pos hcnt] at ho ⊢
      exact hsuffix (commonPrefixLen st.lastKey key) hshared_lt o ho
    · simp only [if_neg hcnt] at ho ⊢
      rcases List.mem_append.mp ho with hold | hnew
      · exact hsuffix 0 (fun fk _ => hshared0 fk) o hold
      · -- the freshly pushed restart points at the new entry
        simp only [List.mem_singleton] at hnew
        subst hnew
        refine ⟨by simp, es.length, ?_, ?_, ?_⟩
        · simp
        · intro hcon
          simp at hcon
        · intro k
          have hdrop : (st.buffer ++ encodeEntry 0 key value).drop st.buffer.length =
              encodeEntry 0 key value := List.drop_left _ _
          have hdropes : (es ++ [(key, value)]).drop es.length = [(key, value)] := by
            rw [List.drop_append_of_le_length le_rfl, List.drop_length]
            rfl
          rw [hdrop, hdropes]
          have := parseEntries_snoc (parseEntries_nil k) (hshared0 k)
          simpa [lastKeyOf_concat] using this

theorem builderInv_addAll (interval : Nat) (kvs : List (List Nat × List Nat)) :
    ∀ st es, (∀ kv ∈ kvs, kv.1.length < 2 ^ 32 ∧ kv.2.length < 2 ^ 32) →
      BuilderInv st es → BuilderInv (blockAddAll interval st kvs) (es ++ kvs) := by
  induction kvs with
  | nil => intro st es _ h; simpa [blockAddAll] using h
  | cons kv kvs ih =>
    intro st es hwf h
    have hkv := hwf kv (List.mem_cons_self kv kvs)
    have hrest : ∀ p ∈ kvs, p.1.length < 2 ^ 32 ∧ p.2.length < 2 ^ 32 :=
      fun p hp => hwf p (List.mem_cons_of_mem kv hp)
    have hstep := builderInv_add interval st es kv.1 kv.2 h hkv.1 hkv.2
    have := ih (blockAdd interval st kv.1 kv.2) (es ++ [(kv.1, kv.2)]) hrest hstep
    simpa [blockAddAll] using this

/-- Modelled from the spec: the restart count read from the trailing
fixed32 of the block. -/
def blockNumRestarts (data : List Nat) : Nat :=
  decodeFixed32 (data.drop (data.length - 4))

/-- Modelled from the spec: the restart array begins at
`size - (1 + num_restarts) * 4`. -/
def blockRestartOffset (data : List Nat) : Nat :=
  data.length - (4 + 4 * blockNumRestarts data)

/-- Restart offset `j`, read from the restart array. -/
def blockRestartPoint (data : List Nat) (j : Nat) : Nat :=
  decodeFixed32 (data.drop (blockRestartOffset data + 4 * j))

/-- Modelled from the spec: forward iteration (`SeekToFirst`, then `Next`
until past the end) as the sequential decode of the entries region.
`none` is the corruption outcome (blocks shorter than four bytes, a
restart count overrunning the block, or an undecodable entry); `some es`
lists the visited pairs, after which the iterator is `!Valid`.  A restart
count of zero is tolerated as an empty block. -/
def blockForwardScan (data : List Nat) : Option (List (List Nat × List Nat)) :=
  if data.length < 4 then none
  else if (data.length - 4) / 4 < blockNumRestarts data then none
  else if blockNumRestarts data = 0 then some []
  else
    match parseEntries (data.take (blockRestartOffset data)) [] with
    | none => none
    | some (es, _) => some es

theorem blockAddAll_restarts_grow (interval : Nat) (kvs : List (List Nat × List Nat)) :
    ∀ st, ∃ t, (blockAddAll interval st kvs).restarts = st.restarts ++ t := by
  induction kvs with
  | nil => intro st; exact ⟨[], by simp [blockAddAll]⟩
  | cons kv kvs ih =>
    intro st
    obtain ⟨t, ht⟩ := ih (blockAdd interval st kv.1 kv.2)
    have hstep : blockAddAll interval st (kv :: kvs) =
        blockAddAll interval (blockAdd interval st kv.1 kv.2) kvs := rfl
    rw [hstep]
    by_cases h : st.counter < interval
    · refine ⟨t, ?_⟩
      rw [ht]
      unfold blockAdd
      rw [if_pos h]
    · refine ⟨[st.buffer.length] ++ t, ?_⟩
      rw [ht]
      unfold blockAdd
      rw [if_neg h]
      simp

theorem blockAddAll_restarts_length (interval : Nat) (kvs : List (List Nat × List Nat)) :
    ∀ st, (blockAddAll interval st kvs).restarts.length ≤
      st.restarts.length + kvs.length := by
  induction kvs with
  | nil => intro st; simp [blockAddAll]
  | cons kv kvs ih =>
    intro st
    have hstep : blockAddAll interval st (kv :: kvs) =
        blockAddAll interval (blockAdd interval st kv.1 kv.2) kvs := rfl
    rw [hstep]
    have hrec := ih (blockAdd interval st kv.1 kv.2)
    have hadd : (blockAdd interval st kv.1 kv.2).restarts.length ≤
        st.restarts.length + 1 := by
      unfold blockAdd
      split <;> simp
    simp only [List.length_cons]
    omega

theorem flatten_map_encodeFixed32_length (R : List Nat) :
    ((R.map encodeFixed32).flatten).length = 4 * R.length := by
  induction R with
  | nil => rfl
  | cons r R ih =>
    simp only [List.map_cons, List.flatten_cons, List.length_append, ih,
      length_encodeFixed32, List.length_cons]
    ring

theorem decodeFixed32_encodeFixed32_self (n : Nat) (hn : n < 2 ^ 32) :
    decodeFixed32 (encodeFixed32 n) = n := by
  have := decodeFixed32_encodeFixed32 n hn []
  simpa using this

/-- The shape of a finished block: the trailing count, restart offset, and
entries region recover the builder state. -/
theorem blockFinish_shape (st : BlockBuilder) (hnum : st.restarts.length < 2 ^ 32) :
    blockNumRestarts (blockFinish st) = st.restarts.length ∧
    blockRestartOffset (blockFinish st) = st.buffer.length ∧
    (blockFinish st).take st.buffer.length = st.buffer ∧
    (blockFinish st).length = st.buffer.length + 4 * st.restarts.length + 4 := by
  have hflat : ((st.restarts.map encodeFixed32).flatten).length = 4 * st.restarts.length :=
    flatten_map_encodeFixed32_length _
  have hdata : blockFinish st =
      (st.buffer ++ (st.restarts.map encodeFixed32).flatten) ++
        encodeFixed32 st.restarts.length := by
    unfold blockFinish
    rw [List.append_assoc]
  have hlen : (blockFinish st).length = st.buffer.length + 4 * st.restarts.length + 4 := by
    rw [hdata]
    simp only [List.length_append, hflat, length_encodeFixed32]
  have hpre : (st.buffer ++ (st.restarts.map encodeFixed32).flatten).length =
      st.buffer.length + 4 * st.restarts.length := by
    simp only [List.length_append, hflat]
  have hnumres : blockNumRestarts (blockFinish st) = st.restarts.length := by
    unfold blockNumRestarts
    rw [hlen, hdata,
      List.drop_left' (by rw [hpre]; omega),
      decodeFixed32_encodeFixed32_self _ hnum]
  refine ⟨hnumres, ?_, ?_, hlen⟩
  · unfold blockRestartOffset
    rw [hnumres, hlen]
    omega
  · unfold blockFinish
    exact List.take_left' rfl

/-- C1: building a block from any key/value sequence whose distinct keys
arrive in strictly increasing order under the active comparator, with any
restart interval ≥ 1, and reading the bytes back with a forward scan
(`SeekToFirst` then repeated `Next`) yields exactly the input pairs in
order, after which the iterator is `!Valid`. -/
theorem blockForwardScan_buildBlock (interval : Nat)
    (lt : List Nat → List Nat → Bool) (kvs : List (List Nat × List Nat))
    (hint : 1 ≤ interval)
    (hsorted : List.Chain' (fun a b => lt a.1 b.1 = true) kvs)
    (hwf : ∀ kv ∈ kvs, kv.1.length < 2 ^ 32 ∧ kv.2.length < 2 ^ 32)
    (hn : kvs.length + 1 < 2 ^ 32) :
    blockForwardScan (buildBlock interval kvs) = some kvs := by
  have hinv : BuilderInv (blockAddAll interval BlockBuilder.empty kvs) kvs := by
    have := builderInv_addAll interval kvs BlockBuilder.empty [] hwf builderInv_empty
    simpa using this
  obtain ⟨t, ht⟩ := blockAddAll_restarts_grow interval kvs BlockBuilder.empty
  have hnum1 : 1 ≤ (blockAddAll interval BlockBuilder.empty kvs).restarts.length := by
    rw [ht]
    simp [BlockBuilder.empty]
  have hnumle : (blockAddAll interval BlockBuilder.empty kvs).restarts.length <
      2 ^ 32 := by
    have hb := blockAddAll_restarts_length interval kvs BlockBuilder.empty
    have h1 : BlockBuilder.empty.restarts.length = 1 := rfl
    omega
  obtain ⟨hnum, hoff, htake, hlen⟩ := blockFinish_shape
    (blockAddAll interval BlockBuilder.empty kvs) hnumle
  have hdata : buildBlock interval kvs = blockFinish (blockAddAll interval
    BlockBuilder.empty kvs) := rfl
  unfold blockForwardScan
  rw [hdata, hlen, hnum, hoff, htake]
  rw [if_neg (by omega), if_neg (by omega), if_neg (by omega)]
  obtain ⟨_, hp1, _⟩ := hinv
  rw [hp1 []]

/-- Witness for C1: the two-pair block at restart interval 1. -/
theorem blockForwardScan_buildBlock_witness :
    blockForwardScan (buildBlock 1 [([97], [120]), ([98], [121])]) =
      some [([97], [120]), ([98], [121])] :=
  blockForwardScan_buildBlock 1 byteLt [([97], [120]), ([98], [121])]
    (by norm_num) (List.chain'_cons.mpr ⟨by decide, List.chain'_singleton _⟩)
    (by decide) (by norm_num)

/-- Modelled from the spec: `SeekToFirst` positions at the least entry of
the forward order (or `!Valid` on an empty block). -/
def blockSeekToFirst (data : List Nat) : Option (Option (List Nat × List Nat)) :=
  (blockForwardScan data).map List.head?

/-- Modelled from the spec: `SeekToLast` positions at the greatest entry
(or `!Valid` on an empty block). -/
def blockSeekToLast (data : List Nat) : Option (Option (List Nat × List Nat)) :=
  (blockForwardScan data).map List.getLast?

/-- The reference ordered map's `lower_bound`: the first pair whose key is
not below the target.  This definition follows the spec's words, to be
compared against the reader's `Seek`. -/
def lowerBound (lt : List Nat → List Nat → Bool) (kvs : List (List Nat × List Nat))
    (target : List Nat) : Option (List Nat × List Nat) :=
  kvs.find? (fun kv => ! lt kv.1 target)

/-- The full key stored at the head of restart region `j` (self-contained:
its `shared` must be zero, which decoding against an empty previous key
enforces). -/
def blockKeyAtRestart (data : List Nat) (j : Nat) : Option (List Nat) :=
  match decodeEntry ((data.take (blockRestartOffset data)).drop
      (blockRestartPoint data j)) [] with
  | none => none
  | some (kv, _) => some kv.1

/-- Modelled from the spec: `Seek(target)`: binary-search the restart
array for the last restart region whose first key is below the target
(region 0 when there is none — the search never decodes restart 0), then
decode forward from that restart to the first key not below the target.
`none` is the corruption outcome; `some none` means `!Valid` (no stored
key is ≥ target); `some (some kv)` is the entry the iterator lands on.
A restart key that fails to decode is skipped by the search (it cannot
occur in a well-formed block); an undecodable entry region is a
corruption. -/
def blockSeek (lt : List Nat → List Nat → Bool) (data target : List Nat) :
    Option (Option (List Nat × List Nat)) :=
  if data.length < 4 then none
  else if (data.length - 4) / 4 < blockNumRestarts data then none
  else if blockNumRestarts data = 0 then some none
  else
    match parseEntries ((data.take (blockRestartOffset data)).drop
        (blockRestartPoint data
          ((List.range (blockNumRestarts data - 1)).foldl
            (fun acc i =>
              match blockKeyAtRestart data (i + 1) with
              | some kj => if lt kj target then i + 1 else acc
              | none => acc) 0))) [] with
    | none => none
    | some (es, _) => some (es.find? (fun kv => ! lt kv.1 target))

/-- C8: a four-byte all-zero block — a trailer encoding `restart_count = 0`
— is accepted as an empty block: `SeekToFirst`, `SeekToLast` and
`Seek("foo")` each leave the iterator `!Valid` (inner `none`) while the
status stays OK (outer `some`). -/
theorem zeroRestart_block_empty :
    blockSeekToFirst [0, 0, 0, 0] = some none ∧
    blockSeekToLast [0, 0, 0, 0] = some none ∧
    blockSeek byteLt [0, 0, 0, 0] [102, 111, 111] = some none := by
  refine ⟨?_, ?_, ?_⟩ <;> decide

theorem encodeEntry_length_le (shared : Nat) (key value : List Nat) :
    (encodeEntry shared key value).length ≤ 15 + key.length + value.length := by
  unfold encodeEntry
  simp only [List.length_append, List.length_drop]
  have h1 := length_encodeVarint32 shared
  have h2 := length_encodeVarint32 (key.length - shared)
  have h3 := length_encodeVarint32 value.length
  omega

/-- A byte bound on the encoded entries of a block. -/
def blockSizeBound (kvs : List (List Nat × List Nat)) : Nat :=
  (kvs.map (fun kv => 15 + kv.1.length + kv.2.length)).sum

theorem blockAddAll_buffer_le (interval : Nat) (kvs : List (List Nat × List Nat)) :
    ∀ st, (blockAddAll interval st kvs).buffer.length ≤
      st.buffer.length + blockSizeBound kvs := by
  induction kvs with
  | nil => intro st; simp [blockAddAll, blockSizeBound]
  | cons kv kvs ih =>
    intro st
    have hstep : blockAddAll interval st (kv :: kvs) =
        blockAddAll interval (blockAdd interval st kv.1 kv.2) kvs := rfl
    rw [hstep]
    have hrec := ih (blockAdd interval st kv.1 kv.2)
    have hadd : (blockAdd interval st kv.1 kv.2).buffer.length ≤
        st.buffer.length + (15 + kv.1.length + kv.2.length) := by
      unfold blockAdd
      split <;> simp only [List.length_append] <;>
        have := encodeEntry_length_le (commonPrefixLen st.lastKey kv.1) kv.1 kv.2 <;>
        have := encodeEntry_length_le 0 kv.1 kv.2 <;> omega
    have hbound : blockSizeBound (kv :: kvs) =
        15 + kv.1.length + kv.2.length + blockSizeBound kvs := by
      simp [blockSizeBound]
    omega

theorem restartArray_decode (R : List Nat) :
    ∀ j tail, j < R.length → (∀ o ∈ R, o < 2 ^ 32) →
      decodeFixed32 ((R.map encodeFixed32).flatten.drop (4 * j) ++ tail) =
        R.getD j 0 := by
  induction R with
  | nil => intro j tail hj _; simp at hj
  | cons r R ih =>
    intro j tail hj ho
    cases j with
    | zero =>
      simp only [List.map_cons, List.flatten_cons, Nat.mul_zero, List.drop_zero,
        List.append_assoc]
      rw [decodeFixed32_encodeFixed32 r (ho r (List.mem_cons_self r R)) _]
      rfl
    | succ j =>
      have hdrop : ((encodeFixed32 r ++ (R.map encodeFixed32).flatten)).drop (4 * (j + 1)) =
          (R.map encodeFixed32).flatten.drop (4 * j) := by
        rw [show 4 * (j + 1) = 4 + 4 * j by ring]
        rw [show (4 : Nat) = (encodeFixed32 r).length from rfl]
        rw [List.drop_append]
      simp only [List.map_cons, List.flatten_cons, hdrop]
      rw [ih j tail (by simpa using hj) (fun o hom => ho o (List.mem_cons_of_mem r hom))]
      rfl

theorem foldl_seekIdx_good (g : Nat → Option (List Nat))
    (lt : List Nat → List Nat → Bool) (target : List Nat) (L : List Nat) :
    ∀ acc, (acc = 0 ∨ ∃ kj, g acc = some kj ∧ lt kj target = true) →
      ((L.foldl (fun acc i =>
          match g (i + 1) with
          | some kj => if lt kj target then i + 1 else acc
          | none => acc) acc) = 0 ∨
        ∃ kj, g (L.foldl (fun acc i =>
          match g (i + 1) with
          | some kj => if lt kj target then i + 1 else acc
          | none => acc) acc) = some kj ∧ lt kj target = true) := by
  induction L with
  | nil => intro acc h; exact h
  | cons i L ih =>
    intro acc h
    rw [List.foldl_cons]
    apply ih
    cases hg : g (i + 1) with
    | none => simpa [hg] using h
    | some kj =>
      by_cases hlt : lt kj target
      · right
        refine ⟨kj, ?_, hlt⟩
        simp [hg, hlt]
      · simpa [hg, hlt] using h

theorem foldl_seekIdx_le (g : Nat → Option (List Nat))
    (lt : List Nat → List Nat → Bool) (target : List Nat) (L : List Nat) (n : Nat) :
    ∀ acc, acc ≤ n → (∀ i ∈ L, i + 1 ≤ n) →
      (L.foldl (fun acc i =>
        match g (i + 1) with
        | some kj => if lt kj target then i + 1 else acc
        | none => acc) acc) ≤ n := by
  induction L with
  | nil => intro acc h _; exact h
  | cons i L ih =>
    intro acc h hL
    rw [List.foldl_cons]
    refine ih _ ?_ (fun x hx => hL x (List.mem_cons_of_mem i hx))
    cases hg : g (i + 1) with
    | none => exact h
    | some kj =>
      by_cases hlt : lt kj target
      · simp only [if_pos hlt]
        exact hL i (List.mem_cons_self i L)
      · simpa [hlt] using h

theorem find?_drop_of_take_false {α : Type} (p : α → Bool) :
    ∀ (l : List α) (m : Nat), (∀ x ∈ l.take m, p x = false) →
      l.find? p = (l.drop m).find? p := by
  intro l
  induction l with
  | nil => intro m _; simp
  | cons a l ih =>
    intro m h
    cases m with
    | zero => rfl
    | succ m =>
      have ha : p a = false := h a (by simp)
      rw [List.find?_cons_of_neg _ (by simp [ha]), List.drop_succ_cons]
      exact ih m (fun x hx => h x (by simp [List.take_succ_cons]; exact Or.inr hx))

theorem parseEntries_eq_nil {bs k fk : List Nat}
    (h : parseEntries bs k = some ([], fk)) : bs = [] := by
  cases bs with
  | nil => rfl
  | cons b rest =>
    exfalso
    unfold parseEntries at h
    simp only [List.length_cons] at h
    cases hd : decodeEntry (b :: rest) k with
    | none => simp [parseEntriesAux, hd] at h
    | some p =>
      obtain ⟨kv, r⟩ := p
      simp only [parseEntriesAux, hd] at h
      cases hp : parseEntriesAux rest.length r kv.1 with
      | none => rw [hp] at h; simp at h
      | some q =>
        rw [hp] at h
        simp at h

theorem parseEntries_cons_decode {bs k fk : List Nat} {kv : List Nat × List Nat}
    {es : List (List Nat × List Nat)}
    (h : parseEntries bs k = some (kv :: es, fk)) :
    ∃ r, decodeEntry bs k = some (kv, r) := by
  cases bs with
  | nil =>
    exfalso
    unfold parseEntries at h
    simp [parseEntriesAux] at h
  | cons b rest =>
    unfold parseEntries at h
    simp only [List.length_cons] at h
    cases hd : decodeEntry (b :: rest) k with
    | none => simp [parseEntriesAux, hd] at h
    | some p =>
      obtain ⟨kv', r⟩ := p
      simp only [parseEntriesAux, hd] at h
      cases hp : parseEntriesAux rest.length r kv'.1 with
      | none => rw [hp] at h; simp at h
      | some q =>
        rw [hp] at h
        simp only [Option.some_inj] at h
        have hfst : kv' :: q.1 = kv :: es := congrArg Prod.fst h
        have hkv : kv' = kv := by injection hfst
        exact ⟨r, by rw [hkv]⟩

/-- C2: for every block built from distinct keys sorted under the active
comparator with any restart interval ≥ 1, and every target byte string,
`Seek(target)` positions the iterator at the least stored key ≥ target —
the entry the reference ordered map's `lower_bound` gives — and leaves it
`!Valid` exactly when no stored key is ≥ target. -/
theorem blockSeek_lowerBound (interval : Nat) (lt : List Nat → List Nat → Bool)
    (kvs : List (List Nat × List Nat)) (target : List Nat)
    (hint : 1 ≤ interval)
    (htrans : ∀ a b c, lt a b = true → lt b c = true → lt a c = true)
    (hsorted : List.Chain' (fun a b => lt a.1 b.1 = true) kvs)
    (hwf : ∀ kv ∈ kvs, kv.1.length < 2 ^ 32 ∧ kv.2.length < 2 ^ 32)
    (hn : kvs.length + 1 < 2 ^ 32) (hsize : blockSizeBound kvs < 2 ^ 32) :
    blockSeek lt (buildBlock interval kvs) target =
      some (lowerBound lt kvs target) := by
  haveI : IsTrans (List Nat × List Nat) (fun a b => lt a.1 b.1 = true) :=
    ⟨fun a b c hab hbc => htrans _ _ _ hab hbc⟩
  have hpw : List.Pairwise (fun a b => lt a.1 b.1 = true) kvs :=
    List.chain'_iff_pairwise.mp hsorted
  set st := blockAddAll interval BlockBuilder.empty kvs with hst
  have hinv : BuilderInv st kvs := by
    have := builderInv_addAll interval kvs BlockBuilder.empty [] hwf builderInv_empty
    simpa [hst] using this
  obtain ⟨hlast, hp1, hp2⟩ := hinv
  obtain ⟨t, ht⟩ := blockAddAll_restarts_grow interval kvs BlockBuilder.empty
  rw [← hst] at ht
  have hnum1 : 1 ≤ st.restarts.length := by
    rw [ht]
    simp [BlockBuilder.empty]
  have hnumle : st.restarts.length < 2 ^ 32 := by
    have hb := blockAddAll_restarts_length interval kvs BlockBuilder.empty
    rw [← hst] at hb
    have h1 : BlockBuilder.empty.restarts.length = 1 := rfl
    omega
  obtain ⟨hnum, hoff, htake, hlen⟩ := blockFinish_shape st hnumle
  have hbufle : st.buffer.length < 2 ^ 32 := by
    have hb := blockAddAll_buffer_le interval kvs BlockBuilder.empty
    rw [← hst] at hb
    have h0 : BlockBuilder.empty.buffer.length = 0 := rfl
    omega
  have hofs : ∀ o ∈ st.restarts, o < 2 ^ 32 := by
    intro o ho
    have := (hp2 o ho).1
    omega
  have hdataF : buildBlock interval kvs = blockFinish st := rfl
  have hnum' : blockNumRestarts (buildBlock interval kvs) = st.restarts.length := by
    rw [hdataF]; exact hnum
  have hoff' : blockRestartOffset (buildBlock interval kvs) = st.buffer.length := by
    rw [hdataF]; exact hoff
  have htake' : (buildBlock interval kvs).take st.buffer.length = st.buffer := by
    rw [hdataF]; exact htake
  have hlen' : (buildBlock interval kvs).length =
      st.buffer.length + 4 * st.restarts.length + 4 := by
    rw [hdataF]; exact hlen
  have hpoint : ∀ j, j < st.restarts.length →
      blockRestartPoint (buildBlock interval kvs) j = st.restarts.getD j 0 := by
    intro j hj
    unfold blockRestartPoint
    rw [hoff', hdataF]
    have hflat : ((st.restarts.map encodeFixed32).flatten).length =
        4 * st.restarts.length := flatten_map_encodeFixed32_length _
    have hsplit : blockFinish st =
        st.buffer ++ (((st.restarts.map encodeFixed32).flatten) ++
          encodeFixed32 st.restarts.length) := rfl
    rw [hsplit, show st.buffer.length + 4 * j = st.buffer.length + 4 * j from rfl,
      List.drop_append]
    rw [List.drop_append_of_le_length (by rw [hflat]; omega)]
    exact restartArray_decode st.restarts j _ hj hofs
  unfold blockSeek
  rw [hlen', hnum', hoff', htake']
  rw [if_neg (by omega), if_neg (by omega), if_neg (by omega)]
  have hidxgood := foldl_seekIdx_good (blockKeyAtRestart (buildBlock interval kvs))
    lt target (List.range (st.restarts.length - 1)) 0 (Or.inl rfl)
  have hidxle := foldl_seekIdx_le (blockKeyAtRestart (buildBlock interval kvs))
    lt target (List.range (st.restarts.length - 1)) (st.restarts.length - 1) 0
    (Nat.zero_le _) (fun i hi => by
      rw [List.mem_range] at hi
      omega)
  generalize hIDX : (List.range (st.restarts.length - 1)).foldl
      (fun acc i =>
        match blockKeyAtRestart (buildBlock interval kvs) (i + 1) with
        | some kj => if lt kj target then i + 1 else acc
        | none => acc) 0 = IDX at hidxgood hidxle ⊢
  have hidxlt : IDX < st.restarts.length := by omega
  rcases hidxgood with hidx0 | ⟨kj, hkj, hltkj⟩
  · -- the search stayed at restart 0: the scan covers the whole block
    subst hidx0
    rw [hpoint 0 (by omega)]
    have ho0 : st.restarts.getD 0 0 = 0 := by
      rw [ht]
      rfl
    rw [ho0, List.drop_zero, hp1 []]
    rfl
  · -- the search landed at a later restart whose first key is below target
    rw [hpoint _ hidxlt]
    have hgetd : st.restarts.getD IDX 0 ∈ st.restarts := by
      rw [List.getD_eq_getElem?_getD, List.getElem?_eq_getElem hidxlt]
      exact List.get_mem st.restarts _ hidxlt
    obtain ⟨hole, m, hm, hmes, hparse⟩ := hp2 _ hgetd
    unfold blockKeyAtRestart at hkj
    rw [hoff', htake', hpoint _ hidxlt] at hkj
    cases hdropm : kvs.drop m with
    | nil =>
      exfalso
      have hparse0 := hparse []
      rw [hdropm] at hparse0
      have hbs := parseEntries_eq_nil hparse0
      rw [hbs] at hkj
      simp [decodeEntry, decodeVarint32, decodeVarintAux] at hkj
    | cons kvm rest' =>
      have hmlt : m < kvs.length := by
        by_contra hcon
        push_neg at hcon
        rw [List.drop_eq_nil_of_le hcon] at hdropm
        simp at hdropm
      have hparse0 := hparse []
      rw [hdropm] at hparse0
      obtain ⟨r, hdec⟩ := parseEntries_cons_decode hparse0
      simp only [hdec, Option.some_inj] at hkj
      have hkvm : kvm = kvs.get ⟨m, hmlt⟩ := by
        have h1 : (kvs.drop m).head? = some kvm := by rw [hdropm]; rfl
        rw [List.head?_drop, List.getElem?_eq_getElem hmlt] at h1
        exact (Option.some_inj.mp h1).symm
      have hmtgt : lt (kvs.get ⟨m, hmlt⟩).1 target = true := by
        rw [← hkvm, hkj]
        exact hltkj
      have htakef : ∀ x ∈ kvs.take m, (fun kv => ! lt kv.1 target) x = false := by
        intro x hx
        obtain ⟨i, hi, hgetx⟩ := List.getElem_of_mem hx
        have hilt : i < m := by
          have := hi
          rw [List.length_take] at this
          omega
        have hikvs : i < kvs.length := by omega
        have hxi : x = kvs.get ⟨i, hikvs⟩ := by
          rw [← hgetx]
          simp [List.getElem_take]
        have hrel : lt (kvs.get ⟨i, hikvs⟩).1 (kvs.get ⟨m, hmlt⟩).1 = true :=
          List.pairwise_iff_get.mp hpw ⟨i, hikvs⟩ ⟨m, hmlt⟩ hilt
        have hxlt : lt x.1 target = true := by
          rw [hxi]
          exact htrans _ _ _ hrel hmtgt
        simp [hxlt]
      rw [hparse0]
      show some ((kvm :: rest').find? (fun kv => ! lt kv.1 target)) =
        some (lowerBound lt kvs target)
      unfold lowerBound
      rw [find?_drop_of_take_false _ kvs m htakef, hdropm]

theorem ordering_beq_lt_iff (x : Ordering) : (x == Ordering.lt) = true ↔ x = Ordering.lt := by
  cases x <;> decide

theorem byteLt_trans : ∀ a b c : List Nat,
    byteLt a b = true → byteLt b c = true → byteLt a c = true := by
  intro a b c hab hbc
  unfold byteLt at *
  rw [ordering_beq_lt_iff] at hab hbc ⊢
  exact byteCompare_lt_trans hab hbc

/-- Witness for C2: a two-pair block sought with target `[98]`. -/
theorem blockSeek_lowerBound_witness :
    blockSeek byteLt (buildBlock 1 [([97], [120]), ([98], [121])]) [98] =
      some (lowerBound byteLt [([97], [120]), ([98], [121])] [98]) :=
  blockSeek_lowerBound 1 byteLt [([97], [120]), ([98], [121])] [98]
    (by norm_num) byteLt_trans
    (List.chain'_cons.mpr ⟨by decide, List.chain'_singleton _⟩)
    (by decide) (by norm_num) (by decide)

/-! ## Table builder offset accounting and ApproximateOffsetOf (spec section 4.2)

Modelled from the spec: the table builder/reader sources are not part of
the repository snapshot (only `table_test.cc`); the model follows spec
section 4.2.  Only byte sizes determine block boundaries and offsets, so
data-block values are abstracted to their lengths, while keys, index
entries and the index block itself are kept byte-exact. -/

/-- Modelled from the spec: the default comparator's
`FindShortestSeparator`: on the first differing byte, bump it when that
still stays below the limit; otherwise keep the start key. -/
def findShortestSeparator (start limit : List Nat) : List Nat :=
  let diffIndex := commonPrefixLen start limit
  if diffIndex ≥ min start.length limit.length then start
  else
    let diffByte := start.getD diffIndex 0
    if diffByte < 255 ∧ diffByte + 1 < limit.getD diffIndex 0 then
      start.take diffIndex ++ [diffByte + 1]
    else start

/-- Modelled from the spec: the default comparator's `FindShortSuccessor`:
increment the first byte that is not `0xff` and truncate there. -/
def findShortSuccessor : List Nat → List Nat
  | [] => []
  | b :: rest => if b ≠ 255 then [b + 1] else b :: findShortSuccessor rest

/-- The encoded size of one block entry (sizes only). -/
def simEntryBytes (shared keyLen vlen : Nat) : Nat :=
  (encodeVarint32 shared).length + (encodeVarint32 (keyLen - shared)).length +
    (encodeVarint32 vlen).length + (keyLen - shared) + vlen

/-- A size-level data-block builder: buffer size, restart count, entries
since last restart, last key. -/
structure SimBlock where
  bufSize : Nat
  restarts : Nat
  counter : Nat
  lastKey : List Nat

/-- A fresh data block (one seeded restart). -/
def simBlockEmpty : SimBlock := ⟨0, 1, 0, []⟩

/-- `BlockBuilder::Add` at the size level. -/
def simBlockAdd (interval : Nat) (b : SimBlock) (key : List Nat) (vlen : Nat) : SimBlock :=
  if b.counter < interval then
    ⟨b.bufSize + simEntryBytes (commonPrefixLen b.lastKey key) key.length vlen,
      b.restarts, b.counter + 1, key⟩
  else
    ⟨b.bufSize + simEntryBytes 0 key.length vlen, b.restarts + 1, 1, key⟩

/-- `BlockBuilder::CurrentSizeEstimate` (= the finished size). -/
def simBlockSize (b : SimBlock) : Nat := b.bufSize + 4 * b.restarts + 4

/-- The table builder state: file offset so far, the open data block, the
table-wide last key, the handle of a finished-but-unindexed block, and the
index entries emitted so far (key, block offset, block size). -/
structure SimTable where
  offset : Nat
  db : SimBlock
  tLastKey : List Nat
  pendingHandle : Option (Nat × Nat)
  indexEntries : List (List Nat × Nat × Nat)

def simTableEmpty : SimTable := ⟨0, simBlockEmpty, [], none, []⟩

/-- Modelled from the spec: `TableBuilder::Flush`: finish the data block,
write it with its 5-byte trailer (type + masked CRC), record the handle,
arm the pending index entry. -/
def simFlush (t : SimTable) : SimTable :=
  if t.db.bufSize = 0 then t
  else
    { t with
      offset := t.offset + simBlockSize t.db + 5
      db := simBlockEmpty
      pendingHandle := some (t.offset, simBlockSize t.db) }

/-- Modelled from the spec: `TableBuilder::Add`: emit the pending index
entry under `FindShortestSeparator(last_key, key)`, add to the data block,
and flush when the size estimate reaches `block_size`. -/
def simTableAdd (blockSize interval : Nat) (t : SimTable) (key : List Nat)
    (vlen : Nat) : SimTable :=
  let t1 := match t.pendingHandle with
    | some h =>
      { t with
        indexEntries := t.indexEntries ++ [(findShortestSeparator t.tLastKey key, h)]
        pendingHandle := none }
    | none => t
  let db1 := simBlockAdd interval t1.db key vlen
  let t2 := { t1 with db := db1, tLastKey := key }
  if blockSize ≤ simBlockSize db1 then simFlush t2 else t2

/-- Modelled from the spec: `TableBuilder::Finish`: flush the last data
block, note the meta-index offset (the file position after all data
blocks), and emit the final index entry under
`FindShortSuccessor(last_key)`.  Returns the index entries and the
meta-index offset. -/
def simTableFinish (t : SimTable) : List (List Nat × Nat × Nat) × Nat :=
  let t1 := simFlush t
  let entries := match t1.pendingHandle with
    | some h => t1.indexEntries ++ [(findShortSuccessor t1.tLastKey, h)]
    | none => t1.indexEntries
  (entries, t1.offset)

/-- Build the whole table (sizes only) from keys and value lengths. -/
def simTableBuild (blockSize interval : Nat)
    (kvs : List (List Nat × Nat)) : List (List Nat × Nat × Nat) × Nat :=
  simTableFinish (kvs.foldl (fun t kv => simTableAdd blockSize interval t kv.1 kv.2)
    simTableEmpty)

/-- The index block bytes of the built table: a real block (restart
interval 1, as the table builder uses for its index) whose values are the
varint-encoded block handles. -/
def simIndexBlock (entries : List (List Nat × Nat × Nat)) : List Nat :=
  buildBlock 1 (entries.map (fun e => (e.1, encodeVarint32 e.2.1 ++ encodeVarint32 e.2.2)))

/-- Modelled from the spec: `Table::ApproximateOffsetOf`: seek the index
block for the key; on a hit decode the block handle's offset; past the
last index entry (or on a failed decode) fall back to the meta-index
offset, which is near the end of the file. -/
def approximateOffsetOf (entries : List (List Nat × Nat × Nat)) (metaOff : Nat)
    (key : List Nat) : Nat :=
  match blockSeek byteLt (simIndexBlock entries) key with
  | some (some (_, handleBytes)) =>
    match decodeVarint32 handleBytes with
    | some (off, _) => off
    | none => metaOff
  | _ => metaOff

/-- The `ApproximateOffsetOfPlain` table: keys k01..k07 with value sizes
{5, 6, 10000, 200000, 300000, 6, 100000}, `block_size = 1024`, no
compression, default restart interval 16. -/
def approxPlainTable : List (List Nat × Nat × Nat) × Nat :=
  simTableBuild 1024 16
    [([107, 48, 49], 5), ([107, 48, 50], 6), ([107, 48, 51], 10000),
     ([107, 48, 52], 200000), ([107, 48, 53], 300000), ([107, 48, 54], 6),
     ([107, 48, 55], 100000)]

/-- C9: in the table built with `block_size = 1024` and no compression
from k01..k07 with value sizes {5, 6, 10000, 200000, 300000, 6, 100000},
`ApproximateOffsetOf` returns 0 for every key up through k03, a value in
[10000,11000] for k04, in [210000,211000] for k05, in [510000,511000] for
k06, and in [610000,612000] for "xyz", a key past the last entry. -/
theorem table_approximateOffsetOf_plain :
    approximateOffsetOf approxPlainTable.1 approxPlainTable.2 [97, 98, 99] = 0 ∧
    approximateOffsetOf approxPlainTable.1 approxPlainTable.2 [107, 48, 49] = 0 ∧
    approximateOffsetOf approxPlainTable.1 approxPlainTable.2 [107, 48, 49, 97] = 0 ∧
    approximateOffsetOf approxPlainTable.1 approxPlainTable.2 [107, 48, 50] = 0 ∧
    approximateOffsetOf approxPlainTable.1 approxPlainTable.2 [107, 48, 51] = 0 ∧
    10000 ≤ approximateOffsetOf approxPlainTable.1 approxPlainTable.2 [107, 48, 52] ∧
    approximateOffsetOf approxPlainTable.1 approxPlainTable.2 [107, 48, 52] ≤ 11000 ∧
    210000 ≤ approximateOffsetOf approxPlainTable.1 approxPlainTable.2 [107, 48, 53] ∧
    approximateOffsetOf approxPlainTable.1 approxPlainTable.2 [107, 48, 53] ≤ 211000 ∧
    510000 ≤ approximateOffsetOf approxPlainTable.1 approxPlainTable.2 [107, 48, 54] ∧
    approximateOffsetOf approxPlainTable.1 approxPlainTable.2 [107, 48, 54] ≤ 511000 ∧
    610000 ≤ approximateOffsetOf approxPlainTable.1 approxPlainTable.2 [120, 121, 122] ∧
    approximateOffsetOf approxPlainTable.1 approxPlainTable.2 [120, 121, 122] ≤ 612000 := by
  decide

end LevelDB
